import Mathlib

/-!
Verification development for the Gemini ⇄ OpenAI translation engine of
`copilot-api` (src/routes/gemini/translation.ts and the strict-mode schema
validator), shallowly embedded in Lean.

Modelling conventions:
* JSON values are modelled by the inductive `Json`; JavaScript objects are
  association lists in key order (JS objects have unique keys and preserve
  insertion order; `Object.entries` enumerates them in that order).
* `Date.now()` is modelled as a fixed natural-number timestamp parameter
  (`now`) for one translation invocation.
* `JSON.stringify` and `JSON.parse` are modelled as explicit function
  parameters (`stringify : Json → String`, `parse : String → Json`); the
  translation code never inspects the strings they produce.
* JavaScript array index access `a[i]` with a possibly negative or
  out-of-range index yields `undefined`, modelled with `Option`.
-/

/-- JSON-compatible values.  `obj` keeps fields as an ordered association
list, matching JavaScript object key order. -/
inductive Json where
  | null
  | bool (b : Bool)
  | num (n : Int)
  | str (s : String)
  | arr (elems : List Json)
  | obj (fields : List (String × Json))

/-- Property lookup `o[k]` on a JS object: first binding wins (JS objects
cannot carry duplicate keys, so on faithful inputs there is only one). -/
def getKey : List (String × Json) → String → Option Json
  | [], _ => none
  | (k', v) :: rest, k => if k' = k then some v else getKey rest k

/-- Property assignment `o[k] = v` on a JS object: overwrites in place if the
key exists (keeping its position), otherwise appends at the end. -/
def setKey : List (String × Json) → String → Json → List (String × Json)
  | [], k, v => [(k, v)]
  | (k', v') :: rest, k, v =>
    if k' = k then (k, v) :: rest else (k', v') :: setKey rest k v

/-- The `k in o` presence test. -/
def hasKey (fields : List (String × Json)) (k : String) : Bool :=
  (getKey fields k).isSome

/-- The test `o.type === t` for a string literal `t`. -/
def typeIs (fields : List (String × Json)) (t : String) : Bool :=
  match getKey fields "type" with
  | some (.str s) => s = t
  | _ => false

/-- Decimal digits of `n`, most significant first, with explicit fuel so that
the definition is structurally recursive (the fuel is irrelevant once it is at
least `n`). -/
def natToDecAux : Nat → Nat → List Char
  | 0, _ => []
  | fuel + 1, n => if n = 0 then [] else natToDecAux fuel (n / 10) ++ [Nat.digitChar (n % 10)]

/-- Decimal rendering of a natural number, as JavaScript string interpolation
renders a nonnegative integer. -/
def natToDec (n : Nat) : String :=
  if n = 0 then "0" else (natToDecAux n n).asString

/-- The final stamping step of `addAdditionalPropertiesFalse`:
`if (result.type === "object") result.additionalProperties = false`. -/
def stampObject (fields : List (String × Json)) : List (String × Json) :=
  if typeIs fields "object" then setKey fields "additionalProperties" (.bool false)
  else fields

mutual

/-- Translation of one `[key, value]` entry in the `Object.entries` loop of
`addAdditionalPropertiesFalse`.  Branches in source order:
`properties`-with-object-or-array value, `items`-with-plain-object value,
arrays (shallow-cloned), other plain objects (recursed), primitives. -/
def awfEntry (k : String) (v : Json) : Json :=
  if k = "properties" then
    match v with
    | .obj props => .obj (awfProps props)
    | .arr elems => .obj (awfPropsArr 0 elems)
    | v' => v'
  else if k = "items" then
    match v with
    | .obj fs => .obj (stampObject (awfFields fs))
    | .arr elems => .arr elems
    | v' => v'
  else
    match v with
    | .arr elems => .arr elems
    | .obj fs => .obj (stampObject (awfFields fs))
    | v' => v'
termination_by sizeOf v

/-- The `Object.entries` loop body of `addAdditionalPropertiesFalse` over all
fields (keys are distinct in JS, so building the result by successive
assignment preserves key order; the clone keeps every key). -/
def awfFields : List (String × Json) → List (String × Json)
  | [] => []
  | (k, v) :: rest => (k, awfEntry k v) :: awfFields rest
termination_by fs => sizeOf fs

/-- The inner map over `Object.entries(properties)` when `properties` is a
plain object. -/
def awfProps : List (String × Json) → List (String × Json)
  | [] => []
  | (k, v) :: rest => (k, awfPropValue v) :: awfProps rest
termination_by ps => sizeOf ps

/-- One property value inside `properties`: plain objects are rewritten
recursively, arrays are shallow-cloned, primitives copied. -/
def awfPropValue : Json → Json
  | .obj fs => .obj (stampObject (awfFields fs))
  | v => v
termination_by v => sizeOf v

/-- When `properties` is itself a JS array, `Object.entries` yields indexed
entries and `Object.fromEntries` rebuilds an object keyed by decimal
indices. -/
def awfPropsArr (i : Nat) : List Json → List (String × Json)
  | [] => []
  | v :: rest => (natToDec i, awfPropValue v) :: awfPropsArr (i + 1) rest
termination_by elems => sizeOf elems

end

/-- `addAdditionalPropertiesFalse` from src/routes/gemini/translation.ts:
deep-clones the schema, rewrites `properties` values, `items` and other nested
objects, and stamps `additionalProperties: false` on the result when its
`type` is `"object"`. -/
def addAdditionalPropertiesFalse (schema : List (String × Json)) : List (String × Json) :=
  stampObject (awfFields schema)

/-- Truthiness of an optional JS value (used for `!properties` in the
`required` check of the validator). -/
def jsTruthy : Option Json → Bool
  | none => false
  | some .null => false
  | some (.bool b) => b
  | some (.num n) => !(n = 0)
  | some (.str s) => !(s = "")
  | some (.arr _) => true
  | some (.obj _) => true

/-- The JS `r in properties` test performed by the `required` rule.  For an
object it is key membership; for an array, membership of the canonical decimal
index strings or the own `length` property (other prototype-inherited names
are not modelled; no behaviour under scrutiny depends on them); primitives
never get here because the code first checks `typeof properties`. -/
def inProperties (r : String) : Json → Bool
  | .obj fs => hasKey fs r
  | .arr elems => (List.range elems.length).any (fun i => r = natToDec i) || r = "length"
  | _ => false

/-- Any value found by `getKey` is a strict subterm of the field list
(recorded as a `sizeOf` bound for the validator's termination argument). -/
def sizeOf_lt_of_getKey :
    ∀ (fs : List (String × Json)) (k : String) (v : Json),
      getKey fs k = some v → sizeOf v < sizeOf fs
  | (k', v') :: rest, k, v, h => by
    unfold getKey at h
    split at h
    · cases h
      simp only [List.cons.sizeOf_spec, Prod.mk.sizeOf_spec]
      omega
    · have ih := sizeOf_lt_of_getKey rest k v h
      simp only [List.cons.sizeOf_spec, Prod.mk.sizeOf_spec]
      omega

/-- The leading loop flagging null (or undefined) field values. -/
def validateNullValues (path : String) : List (String × Json) → List (String × String)
  | [] => []
  | (k, .null) :: rest =>
    (path ++ "." ++ k, "Field \"" ++ k ++ "\" has null or undefined value, which is not allowed in strict mode")
      :: validateNullValues path rest
  | _ :: rest => validateNullValues path rest

/-- The same null-value loop applied to a JS array (whose entries are its
elements under decimal index keys). -/
def validateNullElems (path : String) (i : Nat) : List Json → List (String × String)
  | [] => []
  | .null :: rest =>
    (path ++ "." ++ natToDec i, "Field \"" ++ natToDec i ++ "\" has null or undefined value, which is not allowed in strict mode")
      :: validateNullElems path (i + 1) rest
  | _ :: rest => validateNullElems path (i + 1) rest

/-- The rule-5 condition for one required field `r`:
`!properties || typeof properties !== "object" || !(r in properties)`
(a JS array also has `typeof` object). -/
def requiredFieldMissing (props : Option Json) (r : String) : Bool :=
  !(jsTruthy props)
    || !(match props with | some (.obj _) => true | some (.arr _) => true | _ => false)
    || !(match props with | some p => inProperties r p | none => false)

/-- Rule 5: every string entry of `required` must be a key of `properties`. -/
def validateRequired (path : String) (props : Option Json) : List Json → List (String × String)
  | [] => []
  | .str r :: rest =>
    (if requiredFieldMissing props r then
       [(path, "Required field \"" ++ r ++ "\" not found in properties")]
     else [])
      ++ validateRequired path props rest
  | _ :: rest => validateRequired path props rest

mutual

/-- `validateSchemaForStrictMode` from the schema validator: returns the
accumulated `(path, message)` error list in emission order; the result is
valid iff this list is empty.  A JS array passes the `typeof` object check, so
only its entries are scanned for null values; primitives are rejected
outright. -/
def validateSchemaForStrictMode (path : String) (schema : Json) : List (String × String) :=
  match schema with
  | .null => [(path, "Schema cannot be null or undefined")]
  | .bool _ => [(path, "Schema must be an object")]
  | .num _ => [(path, "Schema must be an object")]
  | .str _ => [(path, "Schema must be an object")]
  | .arr elems => validateNullElems path 0 elems
  | .obj fields =>
    validateNullValues path fields
      ++ (if typeIs fields "object" then
            (match getKey fields "additionalProperties" with
             | some (.bool false) => []
             | _ => [(path, "Object type must have \"additionalProperties: false\" for strict mode")])
            ++ (if hasKey fields "properties" then
                  match hp : getKey fields "properties" with
                  | some (.obj props) =>
                    have : sizeOf props < sizeOf fields := by
                      have h1 := sizeOf_lt_of_getKey fields "properties" (.obj props) hp
                      simp only [Json.obj.sizeOf_spec] at h1
                      omega
                    validatePropsEntries path props
                  | some (.arr elems) =>
                    have : sizeOf elems < sizeOf fields := by
                      have h1 := sizeOf_lt_of_getKey fields "properties" (.arr elems) hp
                      simp only [Json.arr.sizeOf_spec] at h1
                      omega
                    validatePropsArr path 0 elems
                  | _ => []
                else
                  [(path, "Object type must have a \"properties\" field (can be empty object)")])
            ++ (match getKey fields "required" with
                | some (.arr reqs) => validateRequired path (getKey fields "properties") reqs
                | _ => [])
          else [])
      ++ (if typeIs fields "array" then
            if hasKey fields "items" then
              match hi : getKey fields "items" with
              | some items =>
                have : sizeOf items < sizeOf fields := sizeOf_lt_of_getKey fields "items" items hi
                validateSchemaForStrictMode (path ++ ".items") items
              | none => []
            else
              [(path, "Array type must have an \"items\" definition for strict mode")]
          else [])
      ++ (if hasKey fields "nullable" then
            [(path, "The \"nullable\" field is not supported in strict mode. Use union types with null instead.")]
          else [])
      ++ (if hasKey fields "$ref" then
            [(path, "The \"$ref\" field is not supported in strict mode. All references must be resolved.")]
          else [])
termination_by sizeOf schema
decreasing_by
  all_goals (simp only [Json.obj.sizeOf_spec]; omega)

/-- Recursive validation of each property definition under `properties`. -/
def validatePropsEntries (path : String) : List (String × Json) → List (String × String)
  | [] => []
  | (k, v) :: rest =>
    validateSchemaForStrictMode (path ++ ".properties." ++ k) v ++ validatePropsEntries path rest
termination_by ps => sizeOf ps
decreasing_by
  all_goals (simp only [List.cons.sizeOf_spec, Prod.mk.sizeOf_spec]; omega)

/-- Recursive validation when `properties` is a JS array (indexed entries). -/
def validatePropsArr (path : String) (i : Nat) : List Json → List (String × String)
  | [] => []
  | v :: rest =>
    validateSchemaForStrictMode (path ++ ".properties." ++ natToDec i) v ++ validatePropsArr path (i + 1) rest
termination_by elems => sizeOf elems
decreasing_by
  all_goals (simp only [List.cons.sizeOf_spec]; omega)

end

/-- The `valid` flag of a validation result: no accumulated errors. -/
def validateValid (schema : Json) : Bool :=
  (validateSchemaForStrictMode "root" schema).isEmpty

/-- Checks that the stamping obligation holds at one object node: if its
`type` is `"object"` then its `additionalProperties` is literally `false`. -/
def objStampOk (fields : List (String × Json)) : Bool :=
  if typeIs fields "object" then
    match getKey fields "additionalProperties" with
    | some (.bool false) => true
    | _ => false
  else true

mutual

/-- Specification-side predicate: EVERY object node of the tree (including
nodes nested inside arrays and the `properties` container itself) satisfies
the stamping obligation.  This is the literal reading of the claim about the
rewriter's output. -/
def allObjNodesStamped : Json → Bool
  | .obj fields => objStampOk fields && allObjNodesStampedFields fields
  | .arr elems => allObjNodesStampedElems elems
  | _ => true
termination_by j => sizeOf j

def allObjNodesStampedFields : List (String × Json) → Bool
  | [] => true
  | (_, v) :: rest => allObjNodesStamped v && allObjNodesStampedFields rest
termination_by fs => sizeOf fs

def allObjNodesStampedElems : List Json → Bool
  | [] => true
  | v :: rest => allObjNodesStamped v && allObjNodesStampedElems rest
termination_by elems => sizeOf elems

end

mutual

/-- Specification-side predicate mirroring the rewriter's recursion: the
stamping obligation holds at every node the rewriter actually visits (values
under an object-valued `properties`, a plain-object `items`, and any other
plain-object field value; values inside arrays are shallow-copied by the
rewriter and are not constrained). -/
def rewrittenInvEntries : List (String × Json) → Bool
  | [] => true
  | (k, v) :: rest => rewrittenInvEntry k v && rewrittenInvEntries rest
termination_by fs => sizeOf fs

def rewrittenInvEntry (k : String) (v : Json) : Bool :=
  if k = "properties" then
    match v with
    | .obj props => rewrittenInvProps props
    | _ => true
  else
    match v with
    | .obj fs => objStampOk fs && rewrittenInvEntries fs
    | _ => true
termination_by sizeOf v

def rewrittenInvProps : List (String × Json) → Bool
  | [] => true
  | (_, v) :: rest =>
    (match v with
     | .obj fs => objStampOk fs && rewrittenInvEntries fs
     | _ => true)
      && rewrittenInvProps rest
termination_by ps => sizeOf ps

end

/-- The visited-node stamping invariant for a whole rewritten schema. -/
def rewrittenInv (fields : List (String × Json)) : Bool :=
  objStampOk fields && rewrittenInvEntries fields

/-- The value is not a JSON `null`. -/
def notNullValue : Json → Bool
  | .null => false
  | _ => true

/-- No field of the object holds a JSON `null`. -/
def noNullValues (fields : List (String × Json)) : Bool :=
  fields.all (fun kv => notNullValue kv.2)

/-- Rule-5 readiness: if `required` is an array, each of its string entries
names a key of the (object-valued) `properties`. -/
def requiredOk (fields : List (String × Json)) : Bool :=
  match getKey fields "required" with
  | some (.arr reqs) =>
    reqs.all (fun r =>
      match r with
      | .str s =>
        (match getKey fields "properties" with
         | some (.obj props) => hasKey props s
         | _ => false)
      | _ => true)
  | _ => true

mutual

/-- Specification-side predicate: the schema is strict-mode-ready except
possibly for missing `additionalProperties` stamps — no null field values,
every object node declares an object-valued `properties` whose values are
object schemas, `required` names declared properties, every array node
declares an object-valued `items`, and no node carries `nullable` or `$ref`
(along the validator's recursion). -/
def strictReady (fields : List (String × Json)) : Bool :=
  noNullValues fields
    && (if typeIs fields "object" then
          (match hp : getKey fields "properties" with
           | some (.obj props) =>
             have : sizeOf props < sizeOf fields := by
               have h1 := sizeOf_lt_of_getKey fields "properties" (.obj props) hp
               simp only [Json.obj.sizeOf_spec] at h1
               omega
             strictReadyProps props
           | _ => false)
            && requiredOk fields
        else true)
    && (if typeIs fields "array" then
          match hi : getKey fields "items" with
          | some (.obj ifs) =>
            have : sizeOf ifs < sizeOf fields := by
              have h1 := sizeOf_lt_of_getKey fields "items" (.obj ifs) hi
              simp only [Json.obj.sizeOf_spec] at h1
              omega
            strictReady ifs
          | _ => false
        else true)
    && !(hasKey fields "nullable") && !(hasKey fields "$ref")
termination_by sizeOf fields
decreasing_by all_goals assumption

/-- Readiness of each property definition: every property value is itself a
strict-mode-ready object schema. -/
def strictReadyProps : List (String × Json) → Bool
  | [] => true
  | (_, v) :: rest =>
    (match v with | .obj vfs => strictReady vfs | _ => false) && strictReadyProps rest
termination_by ps => sizeOf ps
decreasing_by all_goals (simp only [List.cons.sizeOf_spec, Prod.mk.sizeOf_spec, Json.obj.sizeOf_spec]; omega)

end

/-!  Conversation data model (gemini-types / create-chat-completions shapes). -/

/-- A Gemini `functionCall` part payload. -/
structure FunctionCall where
  name : String
  args : Json

/-- A Gemini `functionResponse` part payload (the id is optional on the
wire). -/
structure FunctionResponse where
  id : Option String := none
  name : String
  response : Json

/-- A Gemini content part, as discriminated by the `isTextPart`,
`isFunctionCallPart`, `isFunctionResponsePart` and `isInlineDataPart`
presence-of-key guards. -/
inductive GeminiPart where
  | text (s : String)
  | functionCall (fc : FunctionCall)
  | functionResponse (fr : FunctionResponse)
  | inlineData (mimeType : String) (data : String)

/-- One Gemini conversation turn. -/
structure GeminiContent where
  role : Option String := none
  parts : List GeminiPart

/-- An OpenAI structured content part (text or data-URI image). -/
inductive ContentPart where
  | text (text : String)
  | image_url (url : String)

/-- OpenAI message content: a plain string, a structured list, or `null`. -/
inductive MsgContent where
  | null
  | str (s : String)
  | parts (l : List ContentPart)

/-- One entry of an assistant message's `tool_calls`.  The id is optional
because it is read from the pre-generated id queue by index (an out-of-range
read yields `undefined` in JS). -/
structure ToolCall where
  id : Option String
  type : String
  name : String
  arguments : String

/-- An OpenAI chat message. -/
structure Message where
  role : String
  content : MsgContent
  tool_calls : Option (List ToolCall) := none
  tool_call_id : Option String := none

/-- Projection used by `parts.filter(isFunctionCallPart)`. -/
def partFunctionCall : GeminiPart → Option FunctionCall
  | .functionCall fc => some fc
  | _ => none

/-- Projection used by `parts.filter(isFunctionResponsePart)`. -/
def partFunctionResponse : GeminiPart → Option FunctionResponse
  | .functionResponse fr => some fr
  | _ => none

/-- Projection used by `parts.filter(isTextPart)`. -/
def partText : GeminiPart → Option String
  | .text s => some s
  | _ => none

/-- The `isInlineDataPart` guard. -/
def isInlineDataPart : GeminiPart → Bool
  | .inlineData _ _ => true
  | _ => false

/-- `extractTextFromParts`: text parts joined with a blank line. -/
def extractTextFromParts (parts : List GeminiPart) : String :=
  String.intercalate "\n\n" (parts.filterMap partText)

/-- `translateGeminiRoleToOpenAI`. -/
def translateGeminiRoleToOpenAI : Option String → String
  | some "model" => "assistant"
  | some r => r
  | none => "user"

/-- `translateGeminiPartsToOpenAI`: text-only turns become a plain string;
a turn containing inline media becomes a structured part list. -/
def translateGeminiPartsToOpenAI (parts : List GeminiPart) : MsgContent :=
  if !(parts.any isInlineDataPart) then
    .str (extractTextFromParts parts)
  else
    let contentParts := parts.filterMap (fun p =>
      match p with
      | .text t => some (ContentPart.text t)
      | .inlineData mime data => some (ContentPart.image_url ("data:" ++ mime ++ ";base64," ++ data))
      | _ => none)
    if contentParts.isEmpty then .null else .parts contentParts

/-- The synthetic tool-call id
`` `call_${name}_${Date.now()}_${globalCallIndex}` `` with the timestamp
modelled as the fixed parameter `now`. -/
def mkCallId (now : Nat) (name : String) (idx : Nat) : String :=
  "call_" ++ name ++ "_" ++ natToDec now ++ "_" ++ natToDec idx

/-- The function calls of one turn, in part order. -/
def contentFunctionCalls (c : GeminiContent) : List FunctionCall :=
  c.parts.filterMap partFunctionCall

/-- The function responses of one turn, in part order. -/
def contentFunctionResponses (c : GeminiContent) : List FunctionResponse :=
  c.parts.filterMap partFunctionResponse

/-- All function calls of the conversation, scanning turns top-to-bottom and
parts left-to-right (the first pass of `translateGeminiContentsToOpenAI`). -/
def allFunctionCalls (contents : List GeminiContent) : List FunctionCall :=
  contents.flatMap contentFunctionCalls

/-- The pre-generated `toolCallIdQueue`: one synthetic id per function call,
indexed by the global call counter. -/
def toolCallIdQueue (now : Nat) (contents : List GeminiContent) : List String :=
  (allFunctionCalls contents).enum.map (fun p => mkCallId now p.2.name p.1)

/-- JS array subscripting with a possibly negative index. -/
def listGetInt (l : List String) (i : Int) : Option String :=
  if 0 ≤ i then l.get? i.toNat else none

/-- The per-turn deduplication loop over function responses: a response whose
(non-empty) carried id was already seen in this turn is dropped; responses
without an id (or with an empty one) are always kept and never recorded. -/
def dedupFunctionResponses (seen : List String) : List FunctionResponse → List FunctionResponse
  | [] => []
  | fr :: rest =>
    match fr.id with
    | some s =>
      if s = "" then fr :: dedupFunctionResponses seen rest
      else if seen.contains s then dedupFunctionResponses seen rest
      else fr :: dedupFunctionResponses (s :: seen) rest
    | none => fr :: dedupFunctionResponses seen rest

/-- Translation of one turn in the second pass of
`translateGeminiContentsToOpenAI`.  `idx` is the running `toolCallIdIndex`
(number of calls consumed so far); the returned number is its new value. -/
def translateGeminiContent (stringify : Json → String) (queue : List String)
    (idx : Nat) (c : GeminiContent) : List Message × Nat :=
  let fcs := contentFunctionCalls c
  let frs := contentFunctionResponses c
  if fcs.length > 0 then
    let joined := String.intercalate "\n\n" (c.parts.filterMap partText)
    let toolCalls := fcs.enum.map (fun p =>
      { id := queue.get? (idx + p.1)
        type := "function"
        name := p.2.name
        arguments := stringify p.2.args : ToolCall })
    ([{ role := "assistant"
        content := if joined = "" then .null else .str joined
        tool_calls := some toolCalls }],
     idx + fcs.length)
  else if frs.length > 0 then
    let kept := dedupFunctionResponses [] frs
    (kept.enum.map (fun p =>
      { role := "tool"
        content := .str (stringify p.2.response)
        tool_call_id := listGetInt queue ((idx : Int) - (frs.length : Int) + (p.1 : Int)) : Message }),
     idx)
  else
    ([{ role := translateGeminiRoleToOpenAI c.role
        content := translateGeminiPartsToOpenAI c.parts }],
     idx)

/-- The second-pass loop over all turns, threading `toolCallIdIndex`. -/
def translateContentsLoop (stringify : Json → String) (queue : List String) :
    Nat → List GeminiContent → List Message
  | _, [] => []
  | idx, c :: rest =>
    let r := translateGeminiContent stringify queue idx c
    r.1 ++ translateContentsLoop stringify queue r.2 rest

/-- `translateGeminiContentsToOpenAI`: optional system message from the
system instruction, then the translated turns. -/
def translateGeminiContentsToOpenAI (stringify : Json → String) (now : Nat)
    (contents : List GeminiContent) (systemInstruction : Option GeminiContent) : List Message :=
  (match systemInstruction with
   | some si =>
     let t := extractTextFromParts si.parts
     if t = "" then [] else [{ role := "system", content := .str t : Message }]
   | none => [])
    ++ translateContentsLoop stringify (toolCallIdQueue now contents) 0 contents

/-!  Tool declarations, validation, and the full request translator. -/

/-- A Gemini function declaration (either schema field may be populated;
`responseJsonSchema` is carried on the wire but deliberately ignored). -/
structure FunctionDeclaration where
  name : String
  description : Option String := none
  parameters : Option (List (String × Json)) := none
  parametersJsonSchema : Option (List (String × Json)) := none
  responseJsonSchema : Option Json := none

/-- One entry of the Gemini `tools` array. -/
structure GeminiTool where
  functionDeclarations : Option (List FunctionDeclaration) := none

/-- The `function` record of an OpenAI tool. -/
structure ToolFunction where
  name : String
  description : Option String := none
  parameters : List (String × Json)
  strict : Option Bool := none

/-- An OpenAI tool declaration. -/
structure Tool where
  type : String
  function : ToolFunction

/-- The canonical minimal parameter schema substituted for missing or empty
parameter schemas. -/
def defaultToolParameters : List (String × Json) :=
  [("type", .str "object"), ("properties", .obj []), ("additionalProperties", .bool false)]

/-- `translateGeminiToolsToOpenAI`: picks `parametersJsonSchema` over
`parameters` (both objects, so JS truthiness is presence), defaults empty or
missing schemas, rewrites the rest, and marks every tool strict. -/
def translateGeminiToolsToOpenAI (tools : Option (List GeminiTool)) : Option (List Tool) :=
  match tools with
  | none => none
  | some ts =>
    if ts.length = 0 then none
    else
      let openAITools := ts.flatMap (fun t =>
        match t.functionDeclarations with
        | some decls =>
          decls.map (fun f =>
            let chosen := match f.parametersJsonSchema with
              | some p => some p
              | none => f.parameters
            let parameters := match chosen with
              | none => defaultToolParameters
              | some p => if p.length = 0 then defaultToolParameters else addAdditionalPropertiesFalse p
            { type := "function"
              function :=
                { name := f.name
                  description := f.description
                  parameters := parameters
                  strict := some true } : Tool })
        | none => [])
      if openAITools.length = 0 then none else some openAITools

/-- `validateToolsForStrictMode`: per-tool type and name checks, then the
schema validation of strict tools' parameters. -/
def validateToolsForStrictMode (tools : List Tool) : List (String × String) :=
  tools.enum.flatMap (fun p =>
    let i := p.1
    let tool := p.2
    if !(tool.type = "function") then
      [("tools[" ++ natToDec i ++ "].type", "Tool type must be \"function\", got \"" ++ tool.type ++ "\"")]
    else
      (if tool.function.name = "" then
         [("tools[" ++ natToDec i ++ "].function.name", "Tool function name is required")]
       else [])
        ++ (if tool.function.strict = some true then
              validateSchemaForStrictMode ("tools[" ++ natToDec i ++ "].function.parameters")
                (.obj tool.function.parameters)
            else []))

/-- The `functionCallingConfig` record of the Gemini `toolConfig`. -/
structure FunctionCallingConfig where
  mode : Option String := none

/-- The Gemini `toolConfig`. -/
structure ToolConfig where
  functionCallingConfig : Option FunctionCallingConfig := none

/-- `translateGeminiToolConfigToOpenAI`: AUTO → auto, ANY → required,
NONE → none, anything else (or no config) → field omitted. -/
def translateGeminiToolConfigToOpenAI (toolConfig : Option ToolConfig) : Option String :=
  match toolConfig with
  | none => none
  | some tc =>
    match tc.functionCallingConfig with
    | none => none
    | some fcc =>
      match fcc.mode with
      | some "AUTO" => some "auto"
      | some "ANY" => some "required"
      | some "NONE" => some "none"
      | _ => none

/-- Gemini generation config.  The sampling parameters are opaque numeric
pass-throughs (the translator never inspects them), modelled as `Json`. -/
structure GenerationConfig where
  temperature : Option Json := none
  topP : Option Json := none
  maxOutputTokens : Option Json := none
  stopSequences : Option Json := none
  responseMimeType : Option String := none
  responseSchema : Option (List (String × Json)) := none

/-- An OpenAI `response_format`. -/
inductive ResponseFormat where
  | json_object
  | json_schema (name : String) (schema : List (String × Json)) (strict : Bool)

/-- `translateGeminiResponseFormatToOpenAI`: JSON mime type without schema →
generic JSON mode; a non-empty schema → strict `json_schema` with the schema
rewritten; otherwise omitted. -/
def translateGeminiResponseFormatToOpenAI (generationConfig : Option GenerationConfig) :
    Option ResponseFormat :=
  match generationConfig with
  | none => none
  | some gc =>
    let mimeTruthy := match gc.responseMimeType with
      | some s => !(s = "")
      | none => false
    if !mimeTruthy && !gc.responseSchema.isSome then none
    else if gc.responseMimeType = some "application/json"
        && (match gc.responseSchema with
            | none => true
            | some s => s.length = 0) then
      some .json_object
    else if (match gc.responseSchema with
             | some s => !(s.length = 0)
             | none => false) then
      match gc.responseSchema with
      | some s => some (.json_schema "gemini_response_schema" (addAdditionalPropertiesFalse s) true)
      | none => none
    else none

/-- The inbound Gemini request body. -/
structure GeminiGenerateContentPayload where
  contents : List GeminiContent
  systemInstruction : Option GeminiContent := none
  generationConfig : Option GenerationConfig := none
  tools : Option (List GeminiTool) := none
  toolConfig : Option ToolConfig := none

/-- The outbound OpenAI request body. -/
structure ChatCompletionsPayload where
  model : String
  messages : List Message
  temperature : Option Json := none
  top_p : Option Json := none
  max_tokens : Option Json := none
  stop : Option Json := none
  tools : Option (List Tool) := none
  tool_choice : Option String := none
  response_format : Option ResponseFormat := none
  stream : Bool := false

/-- The last translated message is a tool message. -/
def endsWithToolMessage (messages : List Message) : Bool :=
  match messages.getLast? with
  | some m => m.role = "tool"
  | none => false

/-- The fixed continuation turn appended by the trailing-role guard. -/
def continuationMessage : Message :=
  { role := "user", content := .str "Please continue with the next step." }

/-- `translateGeminiToOpenAI`: messages, tools (validated — a validation
failure throws, modelled as `Except.error`; the thrown message carries the
formatted violation list, summarised here by its fixed prefix), the
trailing-role guard, and the remaining 1:1 parameter mapping. -/
def translateGeminiToOpenAI (stringify : Json → String) (now : Nat)
    (payload : GeminiGenerateContentPayload) : Except String ChatCompletionsPayload :=
  let messages := translateGeminiContentsToOpenAI stringify now payload.contents payload.systemInstruction
  let tools := translateGeminiToolsToOpenAI payload.tools
  let validationFailed := match tools with
    | some ts => ts.length > 0 && !(validateToolsForStrictMode ts).isEmpty
    | none => false
  if validationFailed then
    .error "Invalid tool schema for OpenAI strict mode"
  else
    let messages' := if endsWithToolMessage messages then messages ++ [continuationMessage] else messages
    .ok
      { model := "gpt-4"
        messages := messages'
        temperature := payload.generationConfig.bind (fun gc => gc.temperature)
        top_p := payload.generationConfig.bind (fun gc => gc.topP)
        max_tokens := payload.generationConfig.bind (fun gc => gc.maxOutputTokens)
        stop := payload.generationConfig.bind (fun gc => gc.stopSequences)
        tools := tools
        tool_choice := translateGeminiToolConfigToOpenAI payload.toolConfig
        response_format := translateGeminiResponseFormatToOpenAI payload.generationConfig
        stream := false }

/-!  Response and streaming-chunk translation (OpenAI → Gemini). -/

/-- Token-usage details of an OpenAI response. -/
structure PromptTokensDetails where
  cached_tokens : Option Nat := none

/-- OpenAI usage counters (each field optional on the wire). -/
structure Usage where
  prompt_tokens : Option Nat := none
  completion_tokens : Option Nat := none
  total_tokens : Option Nat := none
  prompt_tokens_details : Option PromptTokensDetails := none

/-- The `function` record of a complete response's tool call. -/
structure ResponseToolCallFunction where
  name : String
  arguments : String

/-- A tool call of a complete response's message. -/
structure ResponseToolCall where
  id : String
  function : ResponseToolCallFunction

/-- The message of one complete-response choice. -/
structure ResponseMessage where
  content : Option String := none
  tool_calls : Option (List ResponseToolCall) := none

/-- One choice of a complete response.  `finish_reason` is kept as an open
string set (the switch has a default branch for unrecognized values). -/
structure ResponseChoice where
  message : ResponseMessage
  finish_reason : Option String := none

/-- A complete OpenAI chat-completion response. -/
structure ChatCompletionResponse where
  choices : List ResponseChoice
  usage : Option Usage := none

/-- The `function` fragment of a streamed tool-call delta (name and arguments
both optional). -/
structure DeltaToolCallFunction where
  name : Option String := none
  arguments : Option String := none

/-- One streamed tool-call fragment. -/
structure DeltaToolCall where
  function : Option DeltaToolCallFunction := none

/-- The delta of one streaming choice. -/
structure Delta where
  content : Option String := none
  tool_calls : Option (List DeltaToolCall) := none

/-- One choice of a streaming chunk. -/
structure ChunkChoice where
  delta : Delta
  finish_reason : Option String := none

/-- A streaming OpenAI chunk. -/
structure ChatCompletionChunk where
  choices : List ChunkChoice
  usage : Option Usage := none

/-- Gemini usage metadata. -/
structure GeminiUsageMetadata where
  promptTokenCount : Nat
  candidatesTokenCount : Nat
  totalTokenCount : Nat
  cachedContentTokenCount : Option Nat := none

/-- One Gemini response candidate (`finishReason` omitted when `none`). -/
structure GeminiCandidate where
  content : GeminiContent
  finishReason : Option String := none

/-- A Gemini `generateContent` response. -/
structure GeminiGenerateContentResponse where
  candidates : List GeminiCandidate
  usageMetadata : Option GeminiUsageMetadata := none

/-- `translateOpenAIFinishReasonToGemini`: the exhaustive finish-reason
table; `none` models both `null` and an absent value (the field is then
omitted from the candidate). -/
def translateOpenAIFinishReasonToGemini : Option String → Option String
  | some "stop" => some "STOP"
  | some "length" => some "MAX_TOKENS"
  | some "content_filter" => some "SAFETY"
  | some "tool_calls" => some "STOP"
  | none => none
  | some _ => some "OTHER"

/-- `translateChoiceToCandidate` for complete responses: text content (when
truthy) then one `FunctionCall` part per tool call, arguments JSON-parsed. -/
def translateChoiceToCandidate (parse : String → Json) (choice : ResponseChoice) : GeminiCandidate :=
  let textParts : List GeminiPart := match choice.message.content with
    | some s => if s = "" then [] else [.text s]
    | none => []
  let callParts : List GeminiPart := match choice.message.tool_calls with
    | some tcs => tcs.map (fun tc =>
        .functionCall { name := tc.function.name, args := parse tc.function.arguments })
    | none => []
  { content := { role := some "model", parts := textParts ++ callParts }
    finishReason := translateOpenAIFinishReasonToGemini choice.finish_reason }

/-- The tool-call fragments of a delta that are surfaced: only fragments
carrying a (truthy) function name yield a part; arguments are parsed from
whatever string is present (a missing or empty — falsy — arguments string
yields an empty object). -/
def deltaToolCallParts (parse : String → Json) (tcs : List DeltaToolCall) : List GeminiPart :=
  tcs.filterMap (fun tc =>
    match tc.function with
    | some fn =>
      match fn.name with
      | some n =>
        if n = "" then none
        else
          some (.functionCall
            { name := n
              args := match fn.arguments with
                | some a => if a = "" then Json.obj [] else parse a
                | none => Json.obj [] })
      | none => none
    | none => none)

/-- `translateChunkToGemini`: reads only the first choice; an empty chunk
yields no candidates and zeroed usage; otherwise one candidate built from the
first choice's delta. -/
def translateChunkToGemini (parse : String → Json) (chunk : ChatCompletionChunk) :
    GeminiGenerateContentResponse :=
  match chunk.choices with
  | [] =>
    { candidates := []
      usageMetadata := some
        { promptTokenCount := 0, candidatesTokenCount := 0, totalTokenCount := 0 } }
  | choice :: _ =>
    let textParts : List GeminiPart := match choice.delta.content with
      | some s => if s = "" then [] else [.text s]
      | none => []
    let callParts := match choice.delta.tool_calls with
      | some tcs => deltaToolCallParts parse tcs
      | none => []
    { candidates :=
        [{ content := { role := some "model", parts := textParts ++ callParts }
           finishReason := translateOpenAIFinishReasonToGemini choice.finish_reason }]
      usageMetadata := match chunk.usage with
        | some u => some
          { promptTokenCount := u.prompt_tokens.getD 0
            candidatesTokenCount := u.completion_tokens.getD 0
            totalTokenCount := u.total_tokens.getD 0
            cachedContentTokenCount := u.prompt_tokens_details.bind (fun d => d.cached_tokens) }
        | none => none }

/-- The complete-response branch of the overloaded `translateOpenAIToGemini`
entry point (the chunk branch dispatches to `translateChunkToGemini`): one
candidate per choice, usage counters mapped 1:1 with zero defaults. -/
def translateOpenAIToGemini (parse : String → Json) (response : ChatCompletionResponse) :
    GeminiGenerateContentResponse :=
  { candidates := response.choices.map (translateChoiceToCandidate parse)
    usageMetadata := some
      { promptTokenCount := (response.usage.bind (fun u => u.prompt_tokens)).getD 0
        candidatesTokenCount := (response.usage.bind (fun u => u.completion_tokens)).getD 0
        totalTokenCount := (response.usage.bind (fun u => u.total_tokens)).getD 0
        cachedContentTokenCount :=
          (response.usage.bind (fun u => u.prompt_tokens_details)).bind (fun d => d.cached_tokens) } }

/-!  Specification-side definitions for the correlation claims. -/

/-- The tool-call ids carried by the translated messages, in order. -/
def messageCallIds (msgs : List Message) : List (Option String) :=
  msgs.flatMap (fun m =>
    match m.tool_calls with
    | some tcs => tcs.map (fun tc => tc.id)
    | none => [])

/-- The `tool_call_id`s of the translated tool-result messages, in order. -/
def messageToolResultIds (msgs : List Message) : List (Option String) :=
  msgs.filterMap (fun m => if m.role = "tool" then some m.tool_call_id else none)

/-- The translated tool-result messages. -/
def toolMessages (msgs : List Message) : List Message :=
  msgs.filter (fun m => m.role = "tool")

/-- Total number of function-response parts in the conversation. -/
def totalResponses (contents : List GeminiContent) : Nat :=
  (contents.map (fun c => (contentFunctionResponses c).length)).sum

/-- Duplicate-freedom of a list of strings, as a Bool. -/
def nodupStr : List String → Bool
  | [] => true
  | s :: rest => !(rest.contains s) && nodupStr rest

/-- The non-empty carried ids of a turn's function responses. -/
def carriedIds (frs : List FunctionResponse) : List String :=
  (frs.filterMap (fun fr => fr.id)).filter (fun s => !(s = ""))

/-- The role is one of the roles the Gemini wire type admits for a turn. -/
def roleOk : Option String → Bool
  | none => true
  | some r => r = "user" || r = "model"

/-- Well-formedness of a conversation with `calls` function calls and
`results` function responses already seen: turns never mix calls with
responses, each response turn answers exactly the currently pending calls in
their order, carried response ids do not collide within a turn, and plain
turns carry a Gemini role.  This makes precise the claim's "N well-formed
FunctionCall→FunctionResult pairs in order". -/
def wfContents : Nat → Nat → List GeminiContent → Bool
  | _, _, [] => true
  | calls, results, c :: rest =>
    let fcs := contentFunctionCalls c
    let frs := contentFunctionResponses c
    if fcs.length > 0 then
      frs.length = 0 && wfContents (calls + fcs.length) results rest
    else if frs.length > 0 then
      results + frs.length = calls
        && nodupStr (carriedIds frs)
        && wfContents calls (results + frs.length) rest
    else
      roleOk c.role && wfContents calls results rest

/-- Well-formedness of a whole conversation. -/
def wfConversation (contents : List GeminiContent) : Bool :=
  wfContents 0 0 contents

/-!  Lemmas about object operations and the schema rewriter. -/

theorem getKey_setKey_self (fs : List (String × Json)) (k : String) (v : Json) :
    getKey (setKey fs k v) k = some v := by
  induction fs with
  | nil => simp [setKey, getKey]
  | cons hd tl ih =>
    obtain ⟨k', v'⟩ := hd
    by_cases h : k' = k
    · subst h; simp [setKey, getKey]
    · simp [setKey, getKey, h, ih]

theorem getKey_setKey_ne (fs : List (String × Json)) (k k' : String) (v : Json)
    (h : k' ≠ k) : getKey (setKey fs k v) k' = getKey fs k' := by
  have hne : k ≠ k' := fun hh => h hh.symm
  induction fs with
  | nil =>
    simp only [setKey, getKey]
    rw [if_neg hne]
  | cons hd tl ih =>
    obtain ⟨k'', v'⟩ := hd
    by_cases hk : k'' = k
    · subst hk
      simp only [setKey, if_pos rfl, getKey]
      rw [if_neg hne, if_neg hne]
    · simp only [setKey, if_neg hk, getKey]
      by_cases hk2 : k'' = k'
      · rw [if_pos hk2, if_pos hk2]
      · rw [if_neg hk2, if_neg hk2]
        exact ih

theorem setKey_setKey_self (fs : List (String × Json)) (k : String) (v : Json) :
    setKey (setKey fs k v) k v = setKey fs k v := by
  induction fs with
  | nil => simp [setKey]
  | cons hd tl ih =>
    obtain ⟨k', v'⟩ := hd
    by_cases h : k' = k
    · subst h; simp [setKey]
    · simp [setKey, h, ih]

theorem getKey_awfFields (fs : List (String × Json)) (k : String) :
    getKey (awfFields fs) k = (getKey fs k).map (awfEntry k) := by
  induction fs with
  | nil => simp [awfFields, getKey]
  | cons hd tl ih =>
    obtain ⟨k', v⟩ := hd
    by_cases h : k' = k
    · subst h; simp [awfFields, getKey]
    · simp [awfFields, getKey, h, ih]

theorem awfEntry_str (k s : String) : awfEntry k (.str s) = .str s := by
  simp [awfEntry]

theorem awfEntry_eq_str_iff (k s : String) (v : Json) :
    awfEntry k v = .str s ↔ v = .str s := by
  by_cases hp : k = "properties"
  · subst hp
    cases v <;> simp [awfEntry]
  · by_cases hi : k = "items"
    · subst hi
      cases v <;> simp [awfEntry]
    · cases v <;> simp [awfEntry, hp, hi]

theorem awfEntry_eq_null_iff (k : String) (v : Json) :
    awfEntry k v = .null ↔ v = .null := by
  by_cases hp : k = "properties"
  · subst hp
    cases v <;> simp [awfEntry]
  · by_cases hi : k = "items"
    · subst hi
      cases v <;> simp [awfEntry]
    · cases v <;> simp [awfEntry, hp, hi]

theorem typeIs_awfFields (fs : List (String × Json)) (t : String) :
    typeIs (awfFields fs) t = typeIs fs t := by
  unfold typeIs
  rw [getKey_awfFields]
  cases h : getKey fs "type" with
  | none => rfl
  | some v =>
    cases v with
    | str s => simp [awfEntry_str]
    | null => simp [awfEntry]
    | bool b => simp [awfEntry]
    | num n => simp [awfEntry]
    | arr elems => simp [awfEntry]
    | obj fields => simp [awfEntry]

theorem typeIs_stampObject (gs : List (String × Json)) (t : String) :
    typeIs (stampObject gs) t = typeIs gs t := by
  unfold stampObject
  split
  · unfold typeIs
    rw [getKey_setKey_ne]
    decide
  · rfl

theorem hasKey_awfFields (fs : List (String × Json)) (k : String) :
    hasKey (awfFields fs) k = hasKey fs k := by
  unfold hasKey
  rw [getKey_awfFields]
  cases getKey fs k <;> rfl

theorem objStampOk_stampObject (gs : List (String × Json)) :
    objStampOk (stampObject gs) = true := by
  unfold objStampOk
  rw [typeIs_stampObject]
  by_cases h : typeIs gs "object"
  · rw [if_pos h]
    unfold stampObject
    rw [if_pos h, getKey_setKey_self]
  · rw [if_neg (by simp [h])]

theorem rewrittenInvEntries_setKey_AP (gs : List (String × Json))
    (h : rewrittenInvEntries gs = true) :
    rewrittenInvEntries (setKey gs "additionalProperties" (.bool false)) = true := by
  induction gs with
  | nil => simp [setKey, rewrittenInvEntries, rewrittenInvEntry]
  | cons hd tl ih =>
    obtain ⟨k', v'⟩ := hd
    simp only [rewrittenInvEntries, Bool.and_eq_true] at h
    by_cases hk : k' = "additionalProperties"
    · subst hk
      simp [setKey, rewrittenInvEntries, rewrittenInvEntry, h.2]
    · simp [setKey, hk, rewrittenInvEntries, h.1, ih h.2]

theorem rewrittenInv_stampObject (gs : List (String × Json))
    (h : rewrittenInvEntries gs = true) :
    rewrittenInv (stampObject gs) = true := by
  unfold rewrittenInv
  rw [objStampOk_stampObject]
  simp only [Bool.true_and]
  unfold stampObject
  split
  · exact rewrittenInvEntries_setKey_AP gs h
  · exact h

theorem rewrittenInvProps_awfProps (m : Nat)
    (H : ∀ gs : List (String × Json), sizeOf gs < m →
      rewrittenInv (stampObject (awfFields gs)) = true) :
    ∀ ps : List (String × Json), sizeOf ps < m → rewrittenInvProps (awfProps ps) = true := by
  intro ps
  induction ps with
  | nil => intro _; simp [awfProps, rewrittenInvProps]
  | cons hd tl ih =>
    intro hlt
    obtain ⟨k, v⟩ := hd
    have htl : sizeOf tl < m := by
      simp only [List.cons.sizeOf_spec, Prod.mk.sizeOf_spec] at hlt
      omega
    cases v with
    | obj fs =>
      have hfs : sizeOf fs < m := by
        simp only [List.cons.sizeOf_spec, Prod.mk.sizeOf_spec, Json.obj.sizeOf_spec] at hlt
        omega
      have h1 := H fs hfs
      unfold rewrittenInv at h1
      simp [awfProps, awfPropValue, rewrittenInvProps, h1, ih htl]
    | null => simp [awfProps, awfPropValue, rewrittenInvProps, ih htl]
    | bool b => simp [awfProps, awfPropValue, rewrittenInvProps, ih htl]
    | num n => simp [awfProps, awfPropValue, rewrittenInvProps, ih htl]
    | str s => simp [awfProps, awfPropValue, rewrittenInvProps, ih htl]
    | arr elems => simp [awfProps, awfPropValue, rewrittenInvProps, ih htl]

theorem rewrittenInvProps_awfPropsArr (m : Nat)
    (H : ∀ gs : List (String × Json), sizeOf gs < m →
      rewrittenInv (stampObject (awfFields gs)) = true) :
    ∀ (elems : List Json) (i : Nat), sizeOf elems < m →
      rewrittenInvProps (awfPropsArr i elems) = true := by
  intro elems
  induction elems with
  | nil => intro _ _; simp [awfPropsArr, rewrittenInvProps]
  | cons v tl ih =>
    intro i hlt
    have htl : sizeOf tl < m := by
      simp only [List.cons.sizeOf_spec] at hlt
      omega
    cases v with
    | obj fs =>
      have hfs : sizeOf fs < m := by
        simp only [List.cons.sizeOf_spec, Json.obj.sizeOf_spec] at hlt
        omega
      have h1 := H fs hfs
      unfold rewrittenInv at h1
      simp [awfPropsArr, awfPropValue, rewrittenInvProps, h1, ih _ htl]
    | null => simp [awfPropsArr, awfPropValue, rewrittenInvProps, ih _ htl]
    | bool b => simp [awfPropsArr, awfPropValue, rewrittenInvProps, ih _ htl]
    | num n => simp [awfPropsArr, awfPropValue, rewrittenInvProps, ih _ htl]
    | str s => simp [awfPropsArr, awfPropValue, rewrittenInvProps, ih _ htl]
    | arr elems' => simp [awfPropsArr, awfPropValue, rewrittenInvProps, ih _ htl]

theorem rewrittenInvEntry_awfEntry (m : Nat)
    (H : ∀ gs : List (String × Json), sizeOf gs < m →
      rewrittenInv (stampObject (awfFields gs)) = true)
    (k : String) (v : Json) (hv : sizeOf v < m) :
    rewrittenInvEntry k (awfEntry k v) = true := by
  by_cases hk : k = "properties"
  · subst hk
    cases v with
    | obj ps =>
      have hps : sizeOf ps < m := by
        simp only [Json.obj.sizeOf_spec] at hv
        omega
      simp [awfEntry, rewrittenInvEntry, rewrittenInvProps_awfProps m H ps hps]
    | arr elems =>
      have hes : sizeOf elems < m := by
        simp only [Json.arr.sizeOf_spec] at hv
        omega
      simp [awfEntry, rewrittenInvEntry, rewrittenInvProps_awfPropsArr m H elems 0 hes]
    | null => simp [awfEntry, rewrittenInvEntry]
    | bool b => simp [awfEntry, rewrittenInvEntry]
    | num n => simp [awfEntry, rewrittenInvEntry]
    | str s => simp [awfEntry, rewrittenInvEntry]
  · cases v with
    | obj fs =>
      have hfs : sizeOf fs < m := by
        simp only [Json.obj.sizeOf_spec] at hv
        omega
      have h1 := H fs hfs
      unfold rewrittenInv at h1
      by_cases hi : k = "items"
      · subst hi
        simp [awfEntry, rewrittenInvEntry, h1]
      · simp [awfEntry, rewrittenInvEntry, hk, hi, h1]
    | arr elems =>
      by_cases hi : k = "items"
      · subst hi
        simp [awfEntry, rewrittenInvEntry]
      · simp [awfEntry, rewrittenInvEntry, hk, hi]
    | null => simp [awfEntry, rewrittenInvEntry, hk]
    | bool b => simp [awfEntry, rewrittenInvEntry, hk]
    | num n => simp [awfEntry, rewrittenInvEntry, hk]
    | str s => simp [awfEntry, rewrittenInvEntry, hk]

theorem rewrittenInvEntries_awfFields :
    ∀ (n : Nat) (fs : List (String × Json)), sizeOf fs < n →
      rewrittenInvEntries (awfFields fs) = true := by
  intro n
  induction n with
  | zero => intro fs h; omega
  | succ m ihn =>
    have H : ∀ gs : List (String × Json), sizeOf gs < m →
        rewrittenInv (stampObject (awfFields gs)) = true := by
      intro gs hgs
      exact rewrittenInv_stampObject _ (ihn gs hgs)
    intro fs
    induction fs with
    | nil => intro _; simp [awfFields, rewrittenInvEntries]
    | cons hd tl ihl =>
      intro hfs
      obtain ⟨k, v⟩ := hd
      have hv : sizeOf v < m := by
        simp only [List.cons.sizeOf_spec, Prod.mk.sizeOf_spec] at hfs
        omega
      have htl : sizeOf tl < m + 1 := by
        simp only [List.cons.sizeOf_spec, Prod.mk.sizeOf_spec] at hfs
        omega
      simp [awfFields, rewrittenInvEntries,
        rewrittenInvEntry_awfEntry m H k v hv, ihl htl]

theorem rewrittenInv_addAdditionalPropertiesFalse (fs : List (String × Json)) :
    rewrittenInv (addAdditionalPropertiesFalse fs) = true :=
  rewrittenInv_stampObject _
    (rewrittenInvEntries_awfFields (sizeOf fs + 1) fs (by omega))

/-- Claim C4 (amended): the rewrite always succeeds (it is a total function);
`rewrite({})` is `{}`; every node the rewriter visits (values under an
object-valued `properties`, object `items`, and other object-valued fields —
but not nodes nested inside array values, which are shallow-copied) whose
`type` is `"object"` carries `additionalProperties: false`; and a top-level
node whose `type` is absent or not `"object"` is not stamped (its key set is
unchanged). -/
theorem claim_C4 :
    (∀ fs : List (String × Json), rewrittenInv (addAdditionalPropertiesFalse fs) = true)
    ∧ (∀ fs : List (String × Json), typeIs fs "object" = false →
        hasKey (addAdditionalPropertiesFalse fs) "additionalProperties"
          = hasKey fs "additionalProperties")
    ∧ addAdditionalPropertiesFalse [] = [] := by
  refine ⟨rewrittenInv_addAdditionalPropertiesFalse, ?_, ?_⟩
  · intro fs h
    unfold addAdditionalPropertiesFalse stampObject
    rw [typeIs_awfFields, h]
    simp only [Bool.false_eq_true, if_false]
    exact hasKey_awfFields fs "additionalProperties"
  · simp [addAdditionalPropertiesFalse, awfFields, stampObject, typeIs, getKey]

/-- Witness for claim C4 at a concrete non-object schema. -/
theorem claim_C4_witness :
    typeIs [("foo", Json.num 1)] "object" = false
    ∧ hasKey (addAdditionalPropertiesFalse [("foo", Json.num 1)]) "additionalProperties"
        = hasKey [("foo", Json.num 1)] "additionalProperties" :=
  ⟨by decide, claim_C4.2.1 [("foo", Json.num 1)] (by decide)⟩

/-- Counterexample to claim C4 as literally stated: after rewriting
`\x7b anyOf: [ \x7b type: "object" \x7d ] \x7d`, the object node inside the
`anyOf` array still has `type: "object"` but no `additionalProperties`
(array values are shallow-copied, not recursed into), so not every
object-typed node of the output is stamped. -/
theorem claim_C4_counterexample :
    allObjNodesStamped (.obj (addAdditionalPropertiesFalse
      [("anyOf", Json.arr [Json.obj [("type", Json.str "object")]])])) = false := by
  simp [addAdditionalPropertiesFalse, awfFields, awfEntry, stampObject, typeIs, getKey,
    allObjNodesStamped, allObjNodesStampedFields, allObjNodesStampedElems, objStampOk]

/-!  Idempotence of the rewriter. -/

theorem typeIs_setKey_AP (gs : List (String × Json)) (t : String) (v : Json) :
    typeIs (setKey gs "additionalProperties" v) t = typeIs gs t := by
  unfold typeIs
  rw [getKey_setKey_ne gs "additionalProperties" "type" v (by decide)]

theorem awfFields_setKey_AP (gs : List (String × Json)) :
    awfFields (setKey gs "additionalProperties" (.bool false))
      = setKey (awfFields gs) "additionalProperties" (.bool false) := by
  induction gs with
  | nil => simp [setKey, awfFields, awfEntry]
  | cons hd tl ih =>
    obtain ⟨k', v'⟩ := hd
    by_cases hk : k' = "additionalProperties"
    · subst hk
      simp [setKey, awfFields, awfEntry]
    · simp [setKey, hk, awfFields, ih]

theorem awfPropValue_idem (m : Nat)
    (H : ∀ gs : List (String × Json), sizeOf gs < m →
      stampObject (awfFields (stampObject (awfFields gs))) = stampObject (awfFields gs))
    (v : Json) (hv : sizeOf v < m) :
    awfPropValue (awfPropValue v) = awfPropValue v := by
  cases v with
  | obj fs =>
    have hfs : sizeOf fs < m := by
      simp only [Json.obj.sizeOf_spec] at hv
      omega
    simp only [awfPropValue]
    rw [H fs hfs]
  | null => simp [awfPropValue]
  | bool b => simp [awfPropValue]
  | num n => simp [awfPropValue]
  | str s => simp [awfPropValue]
  | arr elems => simp [awfPropValue]

theorem awfProps_idem (m : Nat)
    (H : ∀ gs : List (String × Json), sizeOf gs < m →
      stampObject (awfFields (stampObject (awfFields gs))) = stampObject (awfFields gs)) :
    ∀ ps : List (String × Json), sizeOf ps < m → awfProps (awfProps ps) = awfProps ps := by
  intro ps
  induction ps with
  | nil => intro _; simp [awfProps]
  | cons hd tl ih =>
    intro hlt
    obtain ⟨k, v⟩ := hd
    have hv : sizeOf v < m := by
      simp only [List.cons.sizeOf_spec, Prod.mk.sizeOf_spec] at hlt
      omega
    have htl : sizeOf tl < m := by
      simp only [List.cons.sizeOf_spec, Prod.mk.sizeOf_spec] at hlt
      omega
    simp only [awfProps]
    rw [awfPropValue_idem m H v hv, ih htl]

theorem awfProps_awfPropsArr (m : Nat)
    (H : ∀ gs : List (String × Json), sizeOf gs < m →
      stampObject (awfFields (stampObject (awfFields gs))) = stampObject (awfFields gs)) :
    ∀ (elems : List Json) (i : Nat), sizeOf elems < m →
      awfProps (awfPropsArr i elems) = awfPropsArr i elems := by
  intro elems
  induction elems with
  | nil => intro _ _; simp [awfPropsArr, awfProps]
  | cons v tl ih =>
    intro i hlt
    have hv : sizeOf v < m := by
      simp only [List.cons.sizeOf_spec] at hlt
      omega
    have htl : sizeOf tl < m := by
      simp only [List.cons.sizeOf_spec] at hlt
      omega
    simp only [awfPropsArr, awfProps]
    rw [awfPropValue_idem m H v hv, ih (i + 1) htl]

theorem awfEntry_idem (m : Nat)
    (H : ∀ gs : List (String × Json), sizeOf gs < m →
      stampObject (awfFields (stampObject (awfFields gs))) = stampObject (awfFields gs))
    (k : String) (v : Json) (hv : sizeOf v < m) :
    awfEntry k (awfEntry k v) = awfEntry k v := by
  by_cases hp : k = "properties"
  · subst hp
    cases v with
    | obj ps =>
      have hps : sizeOf ps < m := by
        simp only [Json.obj.sizeOf_spec] at hv
        omega
      simp [awfEntry, awfProps_idem m H ps hps]
    | arr elems =>
      have hes : sizeOf elems < m := by
        simp only [Json.arr.sizeOf_spec] at hv
        omega
      simp [awfEntry, awfProps_awfPropsArr m H elems 0 hes]
    | null => simp [awfEntry]
    | bool b => simp [awfEntry]
    | num n => simp [awfEntry]
    | str s => simp [awfEntry]
  · by_cases hi : k = "items"
    · subst hi
      cases v with
      | obj fs =>
        have hfs : sizeOf fs < m := by
          simp only [Json.obj.sizeOf_spec] at hv
          omega
        simp [awfEntry, H fs hfs]
      | arr elems => simp [awfEntry]
      | null => simp [awfEntry]
      | bool b => simp [awfEntry]
      | num n => simp [awfEntry]
      | str s => simp [awfEntry]
    · cases v with
      | obj fs =>
        have hfs : sizeOf fs < m := by
          simp only [Json.obj.sizeOf_spec] at hv
          omega
        simp [awfEntry, hp, hi, H fs hfs]
      | arr elems => simp [awfEntry, hp, hi]
      | null => simp [awfEntry, hp, hi]
      | bool b => simp [awfEntry, hp, hi]
      | num n => simp [awfEntry, hp, hi]
      | str s => simp [awfEntry, hp, hi]

theorem awfFields_idem (m : Nat)
    (H : ∀ gs : List (String × Json), sizeOf gs < m →
      stampObject (awfFields (stampObject (awfFields gs))) = stampObject (awfFields gs)) :
    ∀ fs : List (String × Json), sizeOf fs < m + 1 →
      awfFields (awfFields fs) = awfFields fs := by
  intro fs
  induction fs with
  | nil => intro _; simp [awfFields]
  | cons hd tl ih =>
    intro hlt
    obtain ⟨k, v⟩ := hd
    have hv : sizeOf v < m := by
      simp only [List.cons.sizeOf_spec, Prod.mk.sizeOf_spec] at hlt
      omega
    have htl : sizeOf tl < m + 1 := by
      simp only [List.cons.sizeOf_spec, Prod.mk.sizeOf_spec] at hlt
      omega
    simp only [awfFields]
    rw [awfEntry_idem m H k v hv, ih htl]

theorem addAPF_idem_aux :
    ∀ (n : Nat) (fs : List (String × Json)), sizeOf fs < n →
      stampObject (awfFields (stampObject (awfFields fs))) = stampObject (awfFields fs) := by
  intro n
  induction n with
  | zero => intro fs h; omega
  | succ m ihn =>
    intro fs hfs
    have hfields : awfFields (awfFields fs) = awfFields fs := awfFields_idem m ihn fs hfs
    by_cases hc : typeIs fs "object" = true
    · have hgs : typeIs (awfFields fs) "object" = true := by
        rw [typeIs_awfFields]; exact hc
      have h1 : stampObject (awfFields fs)
          = setKey (awfFields fs) "additionalProperties" (.bool false) := by
        unfold stampObject
        rw [hgs]
        simp
      rw [h1, awfFields_setKey_AP, hfields]
      have h2 : typeIs (setKey (awfFields fs) "additionalProperties" (.bool false)) "object" = true := by
        rw [typeIs_setKey_AP]; exact hgs
      unfold stampObject
      rw [h2]
      simp [setKey_setKey_self]
    · have hc' : typeIs fs "object" = false := by
        simpa using hc
      have hgs : typeIs (awfFields fs) "object" = false := by
        rw [typeIs_awfFields]; exact hc'
      have h1 : stampObject (awfFields fs) = awfFields fs := by
        unfold stampObject
        rw [hgs]
        simp
      rw [h1, hfields, h1]

/-- Idempotence of `addAdditionalPropertiesFalse` (shared by several
claims). -/
theorem addAPF_idem (fs : List (String × Json)) :
    addAdditionalPropertiesFalse (addAdditionalPropertiesFalse fs)
      = addAdditionalPropertiesFalse fs := by
  unfold addAdditionalPropertiesFalse
  exact addAPF_idem_aux (sizeOf fs + 1) fs (by omega)

/-- Claim C8 (amended): the rewriter is idempotent — `rewrite(rewrite(S))`
equals `rewrite(S)` as a JSON value — and in both results every object-typed
node the rewriter visits carries `additionalProperties: false` (object-typed
nodes inside array values are copied verbatim and may lack the stamp). -/
theorem claim_C8 :
    ∀ fs : List (String × Json),
      addAdditionalPropertiesFalse (addAdditionalPropertiesFalse fs)
          = addAdditionalPropertiesFalse fs
        ∧ rewrittenInv (addAdditionalPropertiesFalse (addAdditionalPropertiesFalse fs)) = true
        ∧ rewrittenInv (addAdditionalPropertiesFalse fs) = true := by
  intro fs
  refine ⟨addAPF_idem fs, ?_, rewrittenInv_addAdditionalPropertiesFalse fs⟩
  rw [addAPF_idem fs]
  exact rewrittenInv_addAdditionalPropertiesFalse fs

/-- Counterexample to claim C8 as literally stated: rewriting twice is indeed
the identity after the first pass, but it is not true that every object-typed
node of the result carries `additionalProperties: false` — an object schema
inside a `oneOf` array is copied verbatim, unstamped. -/
theorem claim_C8_counterexample :
    allObjNodesStamped (.obj (addAdditionalPropertiesFalse (addAdditionalPropertiesFalse
      [("oneOf", Json.arr [Json.obj [("type", Json.str "object")]])]))) = false := by
  have h1 : addAdditionalPropertiesFalse
      [("oneOf", Json.arr [Json.obj [("type", Json.str "object")]])]
      = [("oneOf", Json.arr [Json.obj [("type", Json.str "object")]])] := by
    simp [addAdditionalPropertiesFalse, awfFields, awfEntry, stampObject, typeIs, getKey]
  have h2 : allObjNodesStamped
      (.obj [("oneOf", Json.arr [Json.obj [("type", Json.str "object")]])]) = false := by
    simp [allObjNodesStamped, allObjNodesStampedFields, allObjNodesStampedElems,
      objStampOk, typeIs, getKey]
  rw [h1, h1]
  exact h2

/-!  Validator soundness on strict-ready schemas. -/

theorem strictReady_noNull (fs : List (String × Json)) (h : strictReady fs = true) :
    noNullValues fs = true := by
  rw [strictReady.eq_def] at h
  simp only [Bool.and_eq_true] at h
  exact h.1.1.1.1

theorem strictReady_noNullable (fs : List (String × Json)) (h : strictReady fs = true) :
    hasKey fs "nullable" = false := by
  rw [strictReady.eq_def] at h
  simp only [Bool.and_eq_true, Bool.not_eq_true'] at h
  exact h.1.2

theorem strictReady_noRef (fs : List (String × Json)) (h : strictReady fs = true) :
    hasKey fs "$ref" = false := by
  rw [strictReady.eq_def] at h
  simp only [Bool.and_eq_true, Bool.not_eq_true'] at h
  exact h.2

theorem strictReady_objParts (fs : List (String × Json)) (h : strictReady fs = true)
    (hc : typeIs fs "object" = true) :
    ∃ props, getKey fs "properties" = some (.obj props)
      ∧ strictReadyProps props = true ∧ requiredOk fs = true := by
  rw [strictReady.eq_def] at h
  rw [hc] at h
  simp only [if_true, Bool.and_eq_true] at h
  split at h
  · next props heq => exact ⟨props, heq, h.1.1.1.2.1, h.1.1.1.2.2⟩
  · next => simp at h

theorem typeIs_eq_true_iff (fs : List (String × Json)) (t : String) :
    typeIs fs t = true ↔ getKey fs "type" = some (.str t) := by
  unfold typeIs
  cases h : getKey fs "type" with
  | none => simp
  | some v => cases v <;> simp

theorem typeIs_array_false_of_object (fs : List (String × Json))
    (hc : typeIs fs "object" = true) : typeIs fs "array" = false := by
  have h1 := (typeIs_eq_true_iff fs "object").mp hc
  cases hb : typeIs fs "array" with
  | false => rfl
  | true =>
    have h2 := (typeIs_eq_true_iff fs "array").mp hb
    rw [h1] at h2
    simp at h2

theorem typeIs_object_false_of_array (fs : List (String × Json))
    (hc : typeIs fs "array" = true) : typeIs fs "object" = false := by
  have h1 := (typeIs_eq_true_iff fs "array").mp hc
  cases hb : typeIs fs "object" with
  | false => rfl
  | true =>
    have h2 := (typeIs_eq_true_iff fs "object").mp hb
    rw [h1] at h2
    simp at h2

theorem strictReady_arrParts (fs : List (String × Json)) (h : strictReady fs = true)
    (hc : typeIs fs "array" = true) :
    ∃ ifs, getKey fs "items" = some (.obj ifs) ∧ strictReady ifs = true := by
  have hco := typeIs_object_false_of_array fs hc
  rw [strictReady.eq_def] at h
  rw [hc, hco] at h
  simp only [Bool.false_eq_true, if_false, if_true, Bool.and_eq_true] at h
  split at h
  · next ifs heq => exact ⟨ifs, heq, h.1.1.2⟩
  · next => simp at h

theorem getKey_stampObject_ne (gs : List (String × Json)) (k : String)
    (h : k ≠ "additionalProperties") : getKey (stampObject gs) k = getKey gs k := by
  unfold stampObject
  split
  · exact getKey_setKey_ne gs "additionalProperties" k (.bool false) h
  · rfl

theorem hasKey_stampObject_ne (gs : List (String × Json)) (k : String)
    (h : k ≠ "additionalProperties") : hasKey (stampObject gs) k = hasKey gs k := by
  unfold hasKey
  rw [getKey_stampObject_ne gs k h]

theorem getKey_awfProps (ps : List (String × Json)) (k : String) :
    getKey (awfProps ps) k = (getKey ps k).map awfPropValue := by
  induction ps with
  | nil => simp [awfProps, getKey]
  | cons hd tl ih =>
    obtain ⟨k', v⟩ := hd
    by_cases h : k' = k
    · subst h; simp [awfProps, getKey]
    · simp [awfProps, getKey, h, ih]

theorem hasKey_awfProps (ps : List (String × Json)) (k : String) :
    hasKey (awfProps ps) k = hasKey ps k := by
  unfold hasKey
  rw [getKey_awfProps]
  cases getKey ps k <;> rfl

theorem notNull_awfEntry (k : String) (v : Json) (hv : v ≠ Json.null) :
    awfEntry k v ≠ Json.null :=
  fun hx => hv ((awfEntry_eq_null_iff k v).mp hx)

theorem headNotNull (x : Json) (hx : x ≠ Json.null) : notNullValue x = true := by
  cases x with
  | null => exact absurd rfl hx
  | bool b => rfl
  | num n => rfl
  | str s => rfl
  | arr elems => rfl
  | obj fields => rfl

theorem noNullValues_awfFields (fs : List (String × Json)) :
    noNullValues (awfFields fs) = noNullValues fs := by
  induction fs with
  | nil => simp [awfFields]
  | cons hd tl ih =>
    obtain ⟨k, v⟩ := hd
    simp only [awfFields, noNullValues, List.all_cons] at ih ⊢
    by_cases hv : v = Json.null
    · subst hv
      rw [(awfEntry_eq_null_iff k Json.null).mpr rfl]
      simp [notNullValue]
    · rw [headNotNull _ (notNull_awfEntry k v hv), headNotNull _ hv, ih]

theorem noNullValues_setKey_AP (gs : List (String × Json)) (h : noNullValues gs = true) :
    noNullValues (setKey gs "additionalProperties" (Json.bool false)) = true := by
  induction gs with
  | nil => simp [setKey, noNullValues, notNullValue]
  | cons hd tl ih =>
    obtain ⟨k, v⟩ := hd
    simp only [noNullValues, List.all_cons, Bool.and_eq_true] at h
    by_cases hk : k = "additionalProperties"
    · subst hk
      simp only [setKey, if_pos rfl]
      simp only [noNullValues, List.all_cons, Bool.and_eq_true]
      first
      | exact ⟨rfl, h.2⟩
      | exact h.2
    · simp only [setKey, if_neg hk]
      simp only [noNullValues, List.all_cons, Bool.and_eq_true]
      exact ⟨h.1, ih h.2⟩

theorem validateNullValues_eq_nil_iff (path : String) (fs : List (String × Json)) :
    (validateNullValues path fs = []) ↔ (noNullValues fs = true) := by
  induction fs with
  | nil => simp [validateNullValues, noNullValues]
  | cons hd tl ih =>
    obtain ⟨k, v⟩ := hd
    cases v with
    | null => simp [validateNullValues, noNullValues, notNullValue]
    | bool b => simpa [validateNullValues, noNullValues, notNullValue] using ih
    | num n => simpa [validateNullValues, noNullValues, notNullValue] using ih
    | str s => simpa [validateNullValues, noNullValues, notNullValue] using ih
    | arr elems => simpa [validateNullValues, noNullValues, notNullValue] using ih
    | obj fields => simpa [validateNullValues, noNullValues, notNullValue] using ih

theorem validateRequired_nil (path : String) (props : List (String × Json)) :
    ∀ reqs : List Json, (∀ s : String, Json.str s ∈ reqs → hasKey props s = true) →
      validateRequired path (some (.obj props)) reqs = [] := by
  intro reqs
  induction reqs with
  | nil => intro _; simp [validateRequired]
  | cons r tl ih =>
    intro h
    have htl : validateRequired path (some (.obj props)) tl = [] :=
      ih (fun s' h' => h s' (List.mem_cons_of_mem r h'))
    cases r with
    | str s =>
      have hs : hasKey props s = true := h s (by simp)
      simp [validateRequired, requiredFieldMissing, jsTruthy, inProperties, hs, htl]
    | null => simp [validateRequired, htl]
    | bool b => simp [validateRequired, htl]
    | num n => simp [validateRequired, htl]
    | arr elems => simp [validateRequired, htl]
    | obj fields => simp [validateRequired, htl]

theorem requiredOk_spec (fs props : List (String × Json)) (reqs : List Json)
    (hro : requiredOk fs = true)
    (hreq : getKey fs "required" = some (.arr reqs))
    (hp : getKey fs "properties" = some (.obj props)) :
    ∀ s : String, Json.str s ∈ reqs → hasKey props s = true := by
  intro s hs
  unfold requiredOk at hro
  rw [hreq] at hro
  rw [List.all_eq_true] at hro
  have h1 := hro _ hs
  rw [hp] at h1
  simpa using h1

theorem validatePropsEntries_awfProps (m : Nat)
    (H : ∀ (gs : List (String × Json)) (path : String), sizeOf gs < m → strictReady gs = true →
      validateSchemaForStrictMode path (.obj (stampObject (awfFields gs))) = []) :
    ∀ (ps : List (String × Json)) (path : String), sizeOf ps < m → strictReadyProps ps = true →
      validatePropsEntries path (awfProps ps) = [] := by
  intro ps
  induction ps with
  | nil => intro path _ _; simp [awfProps, validatePropsEntries]
  | cons hd tl ih =>
    intro path hlt hsp
    obtain ⟨k, v⟩ := hd
    cases v with
    | obj vfs =>
      simp only [strictReadyProps, Bool.and_eq_true] at hsp
      have hv : sizeOf vfs < m := by
        simp only [List.cons.sizeOf_spec, Prod.mk.sizeOf_spec, Json.obj.sizeOf_spec] at hlt
        omega
      have htl : sizeOf tl < m := by
        simp only [List.cons.sizeOf_spec, Prod.mk.sizeOf_spec] at hlt
        omega
      simp only [awfProps, awfPropValue, validatePropsEntries]
      rw [H vfs (path ++ ".properties." ++ k) hv hsp.1, ih path htl hsp.2]
      rfl
    | null => simp [strictReadyProps] at hsp
    | bool b => simp [strictReadyProps] at hsp
    | num n => simp [strictReadyProps] at hsp
    | str s => simp [strictReadyProps] at hsp
    | arr elems => simp [strictReadyProps] at hsp

theorem awfEntry_req_arr (reqs : List Json) :
    awfEntry "required" (.arr reqs) = .arr reqs := by
  simp [awfEntry]

theorem validateSchema_addAPF_aux :
    ∀ (n : Nat) (fs : List (String × Json)) (path : String), sizeOf fs < n → strictReady fs = true →
      validateSchemaForStrictMode path (.obj (stampObject (awfFields fs))) = [] := by
  intro n
  induction n with
  | zero => intro fs path h _; omega
  | succ m ihn =>
    intro fs path hfs hsr
    have hnn := strictReady_noNull fs hsr
    have hnul := strictReady_noNullable fs hsr
    have href := strictReady_noRef fs hsr
    have hNull : validateNullValues path (stampObject (awfFields fs)) = [] := by
      rw [validateNullValues_eq_nil_iff]
      unfold stampObject
      split
      · apply noNullValues_setKey_AP
        rw [noNullValues_awfFields]
        exact hnn
      · rw [noNullValues_awfFields]
        exact hnn
    have hNul2 : hasKey (stampObject (awfFields fs)) "nullable" = false := by
      rw [hasKey_stampObject_ne _ _ (by decide), hasKey_awfFields]
      exact hnul
    have hRef2 : hasKey (stampObject (awfFields fs)) "$ref" = false := by
      rw [hasKey_stampObject_ne _ _ (by decide), hasKey_awfFields]
      exact href
    have hTObj : typeIs (stampObject (awfFields fs)) "object" = typeIs fs "object" := by
      rw [typeIs_stampObject, typeIs_awfFields]
    have hTArr : typeIs (stampObject (awfFields fs)) "array" = typeIs fs "array" := by
      rw [typeIs_stampObject, typeIs_awfFields]
    rw [validateSchemaForStrictMode.eq_def]
    by_cases hc : typeIs fs "object" = true
    · obtain ⟨props, hp, hsp, hro⟩ := strictReady_objParts fs hsr hc
      have hcArr : typeIs fs "array" = false := typeIs_array_false_of_object fs hc
      have hPgs : getKey (stampObject (awfFields fs)) "properties"
          = some (.obj (awfProps props)) := by
        rw [getKey_stampObject_ne _ _ (by decide), getKey_awfFields, hp]
        simp [awfEntry]
      have hPHas : hasKey (stampObject (awfFields fs)) "properties" = true := by
        unfold hasKey
        rw [hPgs]
        rfl
      have hAP : getKey (stampObject (awfFields fs)) "additionalProperties"
          = some (.bool false) := by
        unfold stampObject
        rw [typeIs_awfFields]
        simp [hc, getKey_setKey_self]
      have hsizeProps : sizeOf props < m := by
        have h1 := sizeOf_lt_of_getKey fs "properties" (.obj props) hp
        simp only [Json.obj.sizeOf_spec] at h1
        omega
      have hPE : validatePropsEntries path (awfProps props) = [] :=
        validatePropsEntries_awfProps m (fun gs p hg hs => ihn gs p hg hs) props path hsizeProps hsp
      have hReqKey : getKey (stampObject (awfFields fs)) "required"
          = (getKey fs "required").map (awfEntry "required") := by
        rw [getKey_stampObject_ne _ _ (by decide), getKey_awfFields]
      cases hreq : getKey fs "required" with
      | none =>
        have hReqGs : getKey (stampObject (awfFields fs)) "required" = none := by
          rw [getKey_stampObject_ne _ _ (by decide), getKey_awfFields, hreq]
          rfl
        simp only [hNull, hTObj, hTArr, hNul2, hRef2, hc, hcArr, hAP, hPHas, hReqGs,
          Bool.false_eq_true, if_false, if_true, eq_self_iff_true, List.nil_append, List.append_nil]
        split
        · next props2 heq =>
          rw [hPgs] at heq
          simp only [Option.some.injEq, Json.obj.injEq] at heq
          subst heq
          exact hPE
        · next elems heq =>
          rw [hPgs] at heq
          simp at heq
        · next =>
          rfl
      | some rv =>
        cases rv with
        | arr reqs =>
          have hReqGs : getKey (stampObject (awfFields fs)) "required" = some (.arr reqs) := by
            rw [getKey_stampObject_ne _ _ (by decide), getKey_awfFields, hreq]
            simp [awfEntry]
          have hReqNil : validateRequired path (some (.obj (awfProps props))) reqs = [] :=
            validateRequired_nil path (awfProps props) reqs (fun s hs => by
              rw [hasKey_awfProps]
              exact requiredOk_spec fs props reqs hro hreq hp s hs)
          simp only [hNull, hTObj, hTArr, hNul2, hRef2, hc, hcArr, hAP, hPHas, hReqGs, hPgs,
            hReqNil, Bool.false_eq_true, if_false, if_true, eq_self_iff_true, List.nil_append, List.append_nil]
          split
          · next props2 heq =>
            rw [hPgs] at heq
            simp only [Option.some.injEq, Json.obj.injEq] at heq
            subst heq
            exact hPE
          · next elems heq =>
            rw [hPgs] at heq
            simp at heq
          · next =>
            rfl
        | null =>
          have hReqGs : getKey (stampObject (awfFields fs)) "required" = some .null := by
            rw [getKey_stampObject_ne _ _ (by decide), getKey_awfFields, hreq]
            simp [awfEntry]
          simp only [hNull, hTObj, hTArr, hNul2, hRef2, hc, hcArr, hAP, hPHas, hReqGs,
            Bool.false_eq_true, if_false, if_true, eq_self_iff_true, List.nil_append, List.append_nil]
          split
          · next props2 heq =>
            rw [hPgs] at heq
            simp only [Option.some.injEq, Json.obj.injEq] at heq
            subst heq
            exact hPE
          · next elems heq =>
            rw [hPgs] at heq
            simp at heq
          · next =>
            rfl
        | bool b =>
          have hReqGs : getKey (stampObject (awfFields fs)) "required" = some (.bool b) := by
            rw [getKey_stampObject_ne _ _ (by decide), getKey_awfFields, hreq]
            simp [awfEntry]
          simp only [hNull, hTObj, hTArr, hNul2, hRef2, hc, hcArr, hAP, hPHas, hReqGs,
            Bool.false_eq_true, if_false, if_true, eq_self_iff_true, List.nil_append, List.append_nil]
          split
          · next props2 heq =>
            rw [hPgs] at heq
            simp only [Option.some.injEq, Json.obj.injEq] at heq
            subst heq
            exact hPE
          · next elems heq =>
            rw [hPgs] at heq
            simp at heq
          · next =>
            rfl
        | num nn =>
          have hReqGs : getKey (stampObject (awfFields fs)) "required" = some (.num nn) := by
            rw [getKey_stampObject_ne _ _ (by decide), getKey_awfFields, hreq]
            simp [awfEntry]
          simp only [hNull, hTObj, hTArr, hNul2, hRef2, hc, hcArr, hAP, hPHas, hReqGs,
            Bool.false_eq_true, if_false, if_true, eq_self_iff_true, List.nil_append, List.append_nil]
          split
          · next props2 heq =>
            rw [hPgs] at heq
            simp only [Option.some.injEq, Json.obj.injEq] at heq
            subst heq
            exact hPE
          · next elems heq =>
            rw [hPgs] at heq
            simp at heq
          · next =>
            rfl
        | str s =>
          have hReqGs : getKey (stampObject (awfFields fs)) "required" = some (.str s) := by
            rw [getKey_stampObject_ne _ _ (by decide), getKey_awfFields, hreq]
            simp [awfEntry]
          simp only [hNull, hTObj, hTArr, hNul2, hRef2, hc, hcArr, hAP, hPHas, hReqGs,
            Bool.false_eq_true, if_false, if_true, eq_self_iff_true, List.nil_append, List.append_nil]
          split
          · next props2 heq =>
            rw [hPgs] at heq
            simp only [Option.some.injEq, Json.obj.injEq] at heq
            subst heq
            exact hPE
          · next elems heq =>
            rw [hPgs] at heq
            simp at heq
          · next =>
            rfl
        | obj o =>
          have hReqGs : getKey (stampObject (awfFields fs)) "required"
              = some (.obj (stampObject (awfFields o))) := by
            rw [getKey_stampObject_ne _ _ (by decide), getKey_awfFields, hreq]
            simp [awfEntry]
          simp only [hNull, hTObj, hTArr, hNul2, hRef2, hc, hcArr, hAP, hPHas, hReqGs,
            Bool.false_eq_true, if_false, if_true, eq_self_iff_true, List.nil_append, List.append_nil]
          split
          · next props2 heq =>
            rw [hPgs] at heq
            simp only [Option.some.injEq, Json.obj.injEq] at heq
            subst heq
            exact hPE
          · next elems heq =>
            rw [hPgs] at heq
            simp at heq
          · next =>
            rfl
    · have hc' : typeIs fs "object" = false := by
        cases hb : typeIs fs "object" with
        | false => rfl
        | true => exact absurd hb hc
      by_cases ha : typeIs fs "array" = true
      · obtain ⟨ifs, hi, hsi⟩ := strictReady_arrParts fs hsr ha
        have hIgs : getKey (stampObject (awfFields fs)) "items"
            = some (.obj (stampObject (awfFields ifs))) := by
          rw [getKey_stampObject_ne _ _ (by decide), getKey_awfFields, hi]
          simp [awfEntry]
        have hIHas : hasKey (stampObject (awfFields fs)) "items" = true := by
          unfold hasKey
          rw [hIgs]
          rfl
        have hsizeI : sizeOf ifs < m := by
          have h1 := sizeOf_lt_of_getKey fs "items" (.obj ifs) hi
          simp only [Json.obj.sizeOf_spec] at h1
          omega
        have hIval : validateSchemaForStrictMode (path ++ ".items")
            (.obj (stampObject (awfFields ifs))) = [] := ihn ifs (path ++ ".items") hsizeI hsi
        simp only [hNull, hTObj, hTArr, hNul2, hRef2, hc', ha, hIHas,
          Bool.false_eq_true, if_false, if_true, eq_self_iff_true, List.nil_append, List.append_nil]
        split
        · next items heq =>
          rw [hIgs] at heq
          simp only [Option.some.injEq] at heq
          subst heq
          exact hIval
        · next heq =>
          rw [hIgs] at heq
      · have ha' : typeIs fs "array" = false := by
          cases hb : typeIs fs "array" with
          | false => rfl
          | true => exact absurd hb ha
        simp [hNull, hTObj, hTArr, hNul2, hRef2, hc', ha']

/-- Claim C1 (amended): for every schema that is strict-mode-ready except
possibly for missing `additionalProperties` stamps (no null values, object
nodes declare object-valued `properties` with object-schema values and
consistent `required`, array nodes declare object-valued `items`, no
`nullable` or `$ref`), the validator accepts the rewriter's output:
`validate(rewrite(S)).valid = true`. -/
theorem claim_C1 (fs : List (String × Json)) (h : strictReady fs = true) :
    validateValid (.obj (addAdditionalPropertiesFalse fs)) = true := by
  unfold validateValid addAdditionalPropertiesFalse
  rw [validateSchema_addAPF_aux (sizeOf fs + 1) fs "root" (by omega) h]
  rfl

/-- Witness for claim C1 at the concrete schema
`\x7b type: "object", properties: \x7b\x7d \x7d`. -/
theorem claim_C1_witness :
    strictReady [("type", Json.str "object"), ("properties", Json.obj [])] = true
    ∧ validateValid (.obj (addAdditionalPropertiesFalse
        [("type", Json.str "object"), ("properties", Json.obj [])])) = true := by
  have h : strictReady [("type", Json.str "object"), ("properties", Json.obj [])] = true := by
    simp [strictReady, strictReadyProps, noNullValues, notNullValue, typeIs, getKey, hasKey,
      requiredOk]
  exact ⟨h, claim_C1 _ h⟩

/-- Counterexample to claim C1 as literally stated: the schema
`\x7b type: "object" \x7d` (no `properties` key) is rewritten to
`\x7b type: "object", additionalProperties: false \x7d`, which the validator
rejects — rule 2 demands a `properties` key that the rewriter never adds, so
`validate(rewrite(S)).valid` is not true for every schema `S`. -/
theorem claim_C1_counterexample :
    validateValid (.obj (addAdditionalPropertiesFalse [("type", Json.str "object")])) = false := by
  have hx1 : awfFields [("type", Json.str "object")] = [("type", Json.str "object")] := by
    simp [awfFields, awfEntry]
  have hx3 : stampObject [("type", Json.str "object")]
      = [("type", Json.str "object"), ("additionalProperties", Json.bool false)] := by
    simp [stampObject, typeIs, getKey, setKey]
  have h1 : addAdditionalPropertiesFalse [("type", Json.str "object")]
      = [("type", Json.str "object"), ("additionalProperties", Json.bool false)] := by
    show stampObject (awfFields [("type", Json.str "object")])
        = [("type", Json.str "object"), ("additionalProperties", Json.bool false)]
    rw [hx1, hx3]
  have h2 : validateValid (.obj [("type", Json.str "object"),
      ("additionalProperties", Json.bool false)]) = false := by
    simp [validateValid, validateSchemaForStrictMode, validateNullValues, hasKey, typeIs, getKey]
  rw [h1]
  exact h2

/-!  Conversation translation claims. -/

/-- Claim C5: on every successful translation, the returned message list is
the translated conversation plus exactly one synthetic continuation user turn
when (and only when) the translation ends on a tool message — hence the
returned messages never end with a tool message. -/
theorem claim_C5 (stringify : Json → String) (now : Nat)
    (p : GeminiGenerateContentPayload) (r : ChatCompletionsPayload)
    (h : translateGeminiToOpenAI stringify now p = .ok r) :
    r.messages
        = (if endsWithToolMessage
              (translateGeminiContentsToOpenAI stringify now p.contents p.systemInstruction)
           then translateGeminiContentsToOpenAI stringify now p.contents p.systemInstruction
                  ++ [continuationMessage]
           else translateGeminiContentsToOpenAI stringify now p.contents p.systemInstruction)
      ∧ ∀ m, r.messages.getLast? = some m → m.role ≠ "tool" := by
  unfold translateGeminiToOpenAI at h
  dsimp only [] at h
  split at h
  · simp at h
  · rw [Except.ok.injEq] at h
    subst h
    refine ⟨rfl, ?_⟩
    intro mm hm
    by_cases hb : endsWithToolMessage
        (translateGeminiContentsToOpenAI stringify now p.contents p.systemInstruction) = true
    · simp only [hb, if_true] at hm
      rw [List.getLast?_concat] at hm
      have : mm = continuationMessage := by
        injection hm.symm
      subst this
      decide
    · have hb' : endsWithToolMessage
          (translateGeminiContentsToOpenAI stringify now p.contents p.systemInstruction) = false := by
        cases hx : endsWithToolMessage
            (translateGeminiContentsToOpenAI stringify now p.contents p.systemInstruction) with
        | false => rfl
        | true => exact absurd hx hb
      simp only [hb', Bool.false_eq_true, if_false] at hm
      unfold endsWithToolMessage at hb'
      rw [hm] at hb'
      simpa using hb'

/-- Witness for claim C5 at a concrete one-turn conversation whose
translation ends with a tool message (an orphaned function response), so the
guard appends the continuation turn. -/
theorem claim_C5_witness :
    translateGeminiToOpenAI (fun _ => "") 0
        { contents :=
            [{ role := some "user"
               parts := [.functionResponse { id := some "a", name := "f", response := .obj [] }] }] }
        = .ok
          { model := "gpt-4"
            messages :=
              [{ role := "tool", content := .str "", tool_call_id := none },
               continuationMessage]
            stream := false }
    ∧ (∀ m,
        ([{ role := "tool", content := .str "", tool_call_id := none },
          continuationMessage] : List Message).getLast? = some m → m.role ≠ "tool") := by
  have h : translateGeminiToOpenAI (fun _ => "") 0
      { contents :=
          [{ role := some "user"
             parts := [.functionResponse { id := some "a", name := "f", response := .obj [] }] }] }
      = .ok
        { model := "gpt-4"
          messages :=
            [{ role := "tool", content := .str "", tool_call_id := none },
             continuationMessage]
          stream := false } := by
    rfl
  exact ⟨h, (claim_C5 (fun _ => "") 0 _ _ h).2⟩


theorem dedup_count_zero_of_seen (s : String) (hs : s ≠ "") :
    ∀ (seen : List String) (frs : List FunctionResponse), s ∈ seen →
      ((dedupFunctionResponses seen frs).filter (fun fr => fr.id = some s)).length = 0 := by
  intro seen frs
  induction frs generalizing seen with
  | nil => intro _; simp [dedupFunctionResponses]
  | cons fr rest ih =>
    intro hmem
    cases hid : fr.id with
    | none =>
      have hred : dedupFunctionResponses seen (fr :: rest)
          = fr :: dedupFunctionResponses seen rest := by
        simp [dedupFunctionResponses, hid]
      have hne : ¬(decide (fr.id = some s) = true) := by simp [hid]
      rw [hred]
      simp only [List.filter_cons]
      rw [if_neg hne]
      exact ih seen hmem
    | some t =>
      by_cases ht : t = ""
      · subst ht
        have hred : dedupFunctionResponses seen (fr :: rest)
            = fr :: dedupFunctionResponses seen rest := by
          simp [dedupFunctionResponses, hid]
        have hne : ¬(decide (fr.id = some s) = true) := by
          simp [hid]
          exact fun hh => hs hh.symm
        rw [hred]
        simp only [List.filter_cons]
        rw [if_neg hne]
        exact ih seen hmem
      · by_cases hseen : seen.contains t = true
        · have hmem2 : t ∈ seen := List.elem_iff.mp hseen
          have hred : dedupFunctionResponses seen (fr :: rest)
              = dedupFunctionResponses seen rest := by
            simp [dedupFunctionResponses, hid, ht, hmem2]
          rw [hred]
          exact ih seen hmem
        · have hnmem : t ∉ seen := fun hm => hseen (List.elem_iff.mpr hm)
          have hred : dedupFunctionResponses seen (fr :: rest)
              = fr :: dedupFunctionResponses (t :: seen) rest := by
            simp [dedupFunctionResponses, hid, ht, hnmem]
          have hts : ¬(t = s) := by
            intro hh
            subst hh
            exact hnmem hmem
          have hne : ¬(decide (fr.id = some s) = true) := by
            simp [hid]
            exact hts
          rw [hred]
          simp only [List.filter_cons]
          rw [if_neg hne]
          exact ih (t :: seen) (List.mem_cons_of_mem t hmem)

theorem dedup_count_one (s : String) (hs : s ≠ "") :
    ∀ (seen : List String) (frs : List FunctionResponse), s ∉ seen →
      0 < (frs.filter (fun fr => fr.id = some s)).length →
      ((dedupFunctionResponses seen frs).filter (fun fr => fr.id = some s)).length = 1 := by
  intro seen frs
  induction frs generalizing seen with
  | nil => intro _ hpos; simp at hpos
  | cons fr rest ih =>
    intro hnm hpos
    cases hid : fr.id with
    | none =>
      have hred : dedupFunctionResponses seen (fr :: rest)
          = fr :: dedupFunctionResponses seen rest := by
        simp [dedupFunctionResponses, hid]
      have hne : ¬(decide (fr.id = some s) = true) := by simp [hid]
      rw [hred]
      simp only [List.filter_cons]
      rw [if_neg hne]
      apply ih seen hnm
      simp only [List.filter_cons] at hpos
      rw [if_neg hne] at hpos
      exact hpos
    | some t =>
      by_cases ht : t = ""
      · subst ht
        have hred : dedupFunctionResponses seen (fr :: rest)
            = fr :: dedupFunctionResponses seen rest := by
          simp [dedupFunctionResponses, hid]
        have hne : ¬(decide (fr.id = some s) = true) := by
          simp [hid]
          exact fun hh => hs hh.symm
        rw [hred]
        simp only [List.filter_cons]
        rw [if_neg hne]
        apply ih seen hnm
        simp only [List.filter_cons] at hpos
        rw [if_neg hne] at hpos
        exact hpos
      · by_cases hseen : seen.contains t = true
        · have hmem2 : t ∈ seen := List.elem_iff.mp hseen
          have hred : dedupFunctionResponses seen (fr :: rest)
              = dedupFunctionResponses seen rest := by
            simp [dedupFunctionResponses, hid, ht, hmem2]
          have hts : ¬(t = s) := by
            intro hh
            subst hh
            exact hnm hmem2
          have hne : ¬(decide (fr.id = some s) = true) := by
            simp [hid]
            exact hts
          rw [hred]
          apply ih seen hnm
          simp only [List.filter_cons] at hpos
          rw [if_neg hne] at hpos
          exact hpos
        · have hnmem : t ∉ seen := fun hm => hseen (List.elem_iff.mpr hm)
          have hred : dedupFunctionResponses seen (fr :: rest)
              = fr :: dedupFunctionResponses (t :: seen) rest := by
            simp [dedupFunctionResponses, hid, ht, hnmem]
          rw [hred]
          by_cases hts : t = s
          · subst hts
            have hp : decide (fr.id = some t) = true := by simp [hid]
            simp only [List.filter_cons]
            rw [if_pos hp]
            simp only [List.length_cons]
            rw [dedup_count_zero_of_seen t hs (t :: seen) rest (by simp)]
          · have hne : ¬(decide (fr.id = some s) = true) := by
              simp [hid]
              exact hts
            simp only [List.filter_cons]
            rw [if_neg hne]
            apply ih (t :: seen)
            · intro hmem
              cases List.mem_cons.mp hmem with
              | inl hh => exact hts hh.symm
              | inr hh => exact hnm hh
            · simp only [List.filter_cons] at hpos
              rw [if_neg hne] at hpos
              exact hpos

theorem dedup_filter_none (seen : List String) (frs : List FunctionResponse) :
    (dedupFunctionResponses seen frs).filter (fun fr => fr.id = none)
      = frs.filter (fun fr => fr.id = none) := by
  induction frs generalizing seen with
  | nil => simp [dedupFunctionResponses]
  | cons fr rest ih =>
    cases hid : fr.id with
    | none =>
      have hred : dedupFunctionResponses seen (fr :: rest)
          = fr :: dedupFunctionResponses seen rest := by
        simp [dedupFunctionResponses, hid]
      have hp : decide (fr.id = none) = true := by simp [hid]
      rw [hred]
      simp only [List.filter_cons]
      rw [if_pos hp, if_pos hp, ih]
    | some t =>
      have hne : ¬(decide (fr.id = none) = true) := by simp [hid]
      by_cases ht : t = ""
      · subst ht
        have hred : dedupFunctionResponses seen (fr :: rest)
            = fr :: dedupFunctionResponses seen rest := by
          simp [dedupFunctionResponses, hid]
        rw [hred]
        simp only [List.filter_cons]
        rw [if_neg hne, if_neg hne, ih]
      · by_cases hseen : seen.contains t = true
        · have hmem2 : t ∈ seen := List.elem_iff.mp hseen
          have hred : dedupFunctionResponses seen (fr :: rest)
              = dedupFunctionResponses seen rest := by
            simp [dedupFunctionResponses, hid, ht, hmem2]
          rw [hred]
          simp only [List.filter_cons]
          rw [if_neg hne, ih]
        · have hnmem : t ∉ seen := fun hm => hseen (List.elem_iff.mpr hm)
          have hred : dedupFunctionResponses seen (fr :: rest)
              = fr :: dedupFunctionResponses (t :: seen) rest := by
            simp [dedupFunctionResponses, hid, ht, hnmem]
          rw [hred]
          simp only [List.filter_cons]
          rw [if_neg hne, if_neg hne, ih]

theorem dedup_filter_empty (seen : List String) (frs : List FunctionResponse) :
    (dedupFunctionResponses seen frs).filter (fun fr => fr.id = some "")
      = frs.filter (fun fr => fr.id = some "") := by
  induction frs generalizing seen with
  | nil => simp [dedupFunctionResponses]
  | cons fr rest ih =>
    cases hid : fr.id with
    | none =>
      have hred : dedupFunctionResponses seen (fr :: rest)
          = fr :: dedupFunctionResponses seen rest := by
        simp [dedupFunctionResponses, hid]
      have hne : ¬(decide (fr.id = some "") = true) := by simp [hid]
      rw [hred]
      simp only [List.filter_cons]
      rw [if_neg hne, if_neg hne, ih]
    | some t =>
      by_cases ht : t = ""
      · subst ht
        have hred : dedupFunctionResponses seen (fr :: rest)
            = fr :: dedupFunctionResponses seen rest := by
          simp [dedupFunctionResponses, hid]
        have hp : decide (fr.id = some "") = true := by simp [hid]
        rw [hred]
        simp only [List.filter_cons]
        rw [if_pos hp, if_pos hp, ih]
      · have hne : ¬(decide (fr.id = some "") = true) := by
          simp [hid]
          exact ht
        by_cases hseen : seen.contains t = true
        · have hmem2 : t ∈ seen := List.elem_iff.mp hseen
          have hred : dedupFunctionResponses seen (fr :: rest)
              = dedupFunctionResponses seen rest := by
            simp [dedupFunctionResponses, hid, ht, hmem2]
          rw [hred]
          simp only [List.filter_cons]
          rw [if_neg hne, ih]
        · have hnmem : t ∉ seen := fun hm => hseen (List.elem_iff.mpr hm)
          have hred : dedupFunctionResponses seen (fr :: rest)
              = fr :: dedupFunctionResponses (t :: seen) rest := by
            simp [dedupFunctionResponses, hid, ht, hnmem]
          rw [hred]
          simp only [List.filter_cons]
          rw [if_neg hne, if_neg hne, ih]

/-- C7: in a turn consisting of function-result parts (no function calls),
the outbound messages are exactly one `tool` message per response part kept
by the per-turn deduplication; two parts carrying the same non-empty id
yield exactly one kept part (the second is dropped), while parts carrying
no id or an empty id are never dropped by deduplication. -/
theorem claim_C7 (stringify : Json → String) (queue : List String) (idx : Nat)
    (c : GeminiContent) (s : String) (hs : s ≠ "")
    (hnc : contentFunctionCalls c = [])
    (hfr : 0 < (contentFunctionResponses c).length) :
    (translateGeminiContent stringify queue idx c).1
      = (dedupFunctionResponses [] (contentFunctionResponses c)).enum.map (fun p =>
          { role := "tool"
            content := .str (stringify p.2.response)
            tool_call_id := listGetInt queue
              ((idx : Int) - ((contentFunctionResponses c).length : Int) + (p.1 : Int)) })
    ∧ (0 < ((contentFunctionResponses c).filter (fun fr => fr.id = some s)).length →
        ((dedupFunctionResponses [] (contentFunctionResponses c)).filter
          (fun fr => fr.id = some s)).length = 1)
    ∧ (dedupFunctionResponses [] (contentFunctionResponses c)).filter
          (fun fr => fr.id = none)
        = (contentFunctionResponses c).filter (fun fr => fr.id = none)
    ∧ (dedupFunctionResponses [] (contentFunctionResponses c)).filter
          (fun fr => fr.id = some "")
        = (contentFunctionResponses c).filter (fun fr => fr.id = some "") := by
  refine ⟨?_, ?_, dedup_filter_none _ _, dedup_filter_empty _ _⟩
  · simp [translateGeminiContent, hnc, hfr]
  · intro hpos
    exact dedup_count_one s hs [] _ (by simp) hpos

/-- A turn double-sending one function result under the id `dup`. -/
def c7turn : GeminiContent :=
  { role := some "user"
    parts := [
      .functionResponse { id := some "dup", name := "f", response := .obj [] },
      .functionResponse { id := some "dup", name := "f", response := .obj [] }] }

theorem claim_C7_witness :
    ("dup" : String) ≠ ""
    ∧ contentFunctionCalls c7turn = []
    ∧ 0 < (contentFunctionResponses c7turn).length
    ∧ 0 < ((contentFunctionResponses c7turn).filter
        (fun fr => fr.id = some "dup")).length
    ∧ ((dedupFunctionResponses [] (contentFunctionResponses c7turn)).filter
        (fun fr => fr.id = some "dup")).length = 1 := by
  refine ⟨by decide, rfl, by decide, by decide, ?_⟩
  exact (claim_C7 (fun _ => "") [] 0 c7turn "dup" (by decide) rfl (by decide)).2.1 (by decide)

/-- A conversation whose final turn carries two function-result parts with no
pending function call anywhere before them (every result is an orphan). -/
def c2contents : List GeminiContent :=
  [ { role := some "user", parts := [.text "Hello"] },
    { role := some "model", parts := [.text "Hi there"] },
    { role := some "user", parts := [
        .functionResponse { id := some "orphaned-1", name := "f", response := .obj [] },
        .functionResponse { id := some "orphaned-2", name := "g", response := .obj [] }] } ]

/-- C2: the translation does NOT suppress orphaned function results.  With no
pending call, the pending-id queue is empty, yet the response branch still
emits one `tool` message per (deduplicated) result part; the negative queue
index merely makes each message's `tool_call_id` undefined.  On the
all-orphaned conversation the code emits two tool messages, both with no
`tool_call_id`, instead of the zero result turns the specification demands. -/
theorem claim_C2 :
    (toolMessages (translateGeminiContentsToOpenAI (fun _ => "") 0 c2contents none)).length = 2
    ∧ messageToolResultIds (translateGeminiContentsToOpenAI (fun _ => "") 0 c2contents none)
        = [none, none] := by
  decide

/-- C6: the finish-reason table is total — `stop` and `tool_calls` map to
`STOP`, `length` to `MAX_TOKENS`, `content_filter` to `SAFETY`, a null or
absent reason stays absent (the candidate field is omitted, never a
sentinel), every other value maps to `OTHER` — and both the complete-response
path and the streaming path apply exactly this function to the choice's
`finish_reason`. -/
theorem claim_C6 (parse : String → Json) (s : String)
    (hs : s ∉ ["stop", "length", "content_filter", "tool_calls"]) :
    translateOpenAIFinishReasonToGemini (some "stop") = some "STOP"
    ∧ translateOpenAIFinishReasonToGemini (some "length") = some "MAX_TOKENS"
    ∧ translateOpenAIFinishReasonToGemini (some "content_filter") = some "SAFETY"
    ∧ translateOpenAIFinishReasonToGemini (some "tool_calls") = some "STOP"
    ∧ translateOpenAIFinishReasonToGemini none = none
    ∧ translateOpenAIFinishReasonToGemini (some s) = some "OTHER"
    ∧ (∀ choice : ResponseChoice,
        (translateChoiceToCandidate parse choice).finishReason
          = translateOpenAIFinishReasonToGemini choice.finish_reason)
    ∧ (∀ chunk : ChatCompletionChunk, ∀ choice rest, chunk.choices = choice :: rest →
        (translateChunkToGemini parse chunk).candidates.map GeminiCandidate.finishReason
          = [translateOpenAIFinishReasonToGemini choice.finish_reason]) := by
  refine ⟨rfl, rfl, rfl, rfl, rfl, ?_, fun choice => rfl, ?_⟩
  · simp only [List.mem_cons, List.not_mem_nil, or_false, not_or] at hs
    unfold translateOpenAIFinishReasonToGemini
    split
    · exact absurd (Option.some.inj (by assumption)) hs.1
    · exact absurd (Option.some.inj (by assumption)) hs.2.1
    · exact absurd (Option.some.inj (by assumption)) hs.2.2.1
    · exact absurd (Option.some.inj (by assumption)) hs.2.2.2
    · exact absurd (by assumption : some s = none) (by simp)
    · rfl
  · intro chunk choice rest hch
    simp [translateChunkToGemini, hch]

theorem claim_C6_witness :
    ("weird" : String) ∉ ["stop", "length", "content_filter", "tool_calls"]
    ∧ translateOpenAIFinishReasonToGemini (some "weird") = some "OTHER" :=
  ⟨by decide, (claim_C6 (fun _ => Json.obj []) "weird" (by decide)).2.2.2.2.2.1⟩

/-- C9: a streamed tool-call fragment is surfaced as a `FunctionCall` part
exactly when it carries a truthy (non-empty) function name; a name-bearing
fragment's args are the parse of the arguments string when one is present and
non-empty, and the empty object otherwise; and the chunk translator builds
the candidate's parts from exactly these surfaced fragments. -/
theorem claim_C9 (parse : String → Json) (tc : DeltaToolCall)
    (tcs : List DeltaToolCall) (chunk : ChatCompletionChunk)
    (choice : ChunkChoice) (rest : List ChunkChoice)
    (hch : chunk.choices = choice :: rest)
    (hdc : choice.delta.content = none)
    (htc : choice.delta.tool_calls = some tcs) :
    (translateChunkToGemini parse chunk).candidates.map
        (fun cand => cand.content.parts) = [deltaToolCallParts parse tcs]
    ∧ (deltaToolCallParts parse [tc] = [] ↔
        (∀ fn, tc.function = some fn → ∀ n, fn.name = some n → n = ""))
    ∧ (∀ fn n, tc.function = some fn → fn.name = some n → n ≠ "" →
        ∀ a, fn.arguments = some a → a ≠ "" →
          deltaToolCallParts parse [tc]
            = [.functionCall { name := n, args := parse a }])
    ∧ (∀ fn n, tc.function = some fn → fn.name = some n → n ≠ "" →
        (fn.arguments = none ∨ fn.arguments = some "") →
          deltaToolCallParts parse [tc]
            = [.functionCall { name := n, args := Json.obj [] }]) := by
  refine ⟨?_, ?_, ?_, ?_⟩
  · simp [translateChunkToGemini, hch, hdc, htc]
  · cases hfn : tc.function with
    | none =>
      simp [deltaToolCallParts, hfn]
    | some fn =>
      cases hn : fn.name with
      | none => simp [deltaToolCallParts, hfn, hn]
      | some n =>
        by_cases hne : n = ""
        · subst hne
          simp [deltaToolCallParts, hfn, hn]
        · simp [deltaToolCallParts, hfn, hn, hne]
  · intro fn n hfn hn hne a ha hae
    simp [deltaToolCallParts, hfn, hn, hne, ha, hae]
  · intro fn n hfn hn hne ha
    cases ha with
    | inl ha => simp [deltaToolCallParts, hfn, hn, hne, ha]
    | inr ha => simp [deltaToolCallParts, hfn, hn, hne, ha]

/-- A streamed tool-call fragment carrying a name and an arguments string. -/
def c9frag : DeltaToolCall := { function := some { name := some "f", arguments := some "x" } }

/-- A streaming choice whose delta carries only the fragment `c9frag`. -/
def c9choice : ChunkChoice := { delta := { content := none, tool_calls := some [c9frag] } }

/-- A one-choice streaming chunk around `c9choice`. -/
def c9chunk : ChatCompletionChunk := { choices := [c9choice], usage := none }

theorem claim_C9_witness :
    c9chunk.choices = [c9choice]
    ∧ c9choice.delta.content = none
    ∧ c9choice.delta.tool_calls = some [c9frag]
    ∧ deltaToolCallParts (fun _ => Json.obj [("k", Json.bool true)]) [c9frag]
        = [.functionCall { name := "f", args := Json.obj [("k", Json.bool true)] }] := by
  refine ⟨rfl, rfl, rfl, ?_⟩
  exact (claim_C9 (fun _ => Json.obj [("k", Json.bool true)]) c9frag [c9frag]
    c9chunk c9choice [] rfl rfl rfl).2.2.1 _ _ rfl rfl (by decide) "x" rfl (by decide)

/-- C10: streaming-chunk translation reads only the first choice — a chunk
with at least one choice yields exactly one candidate and is translated
identically to the chunk keeping only that first choice, while a chunk with
no choices yields no candidates and zeroed usage metadata regardless of the
chunk's own usage field; complete-response translation instead yields one
candidate per choice. -/
theorem claim_C10 (parse : String → Json) (chunk chunk0 : ChatCompletionChunk)
    (choice : ChunkChoice) (rest : List ChunkChoice)
    (hch : chunk.choices = choice :: rest)
    (h0 : chunk0.choices = [])
    (response : ChatCompletionResponse) :
    (translateChunkToGemini parse chunk).candidates.length = 1
    ∧ translateChunkToGemini parse chunk
        = translateChunkToGemini parse { choices := [choice], usage := chunk.usage }
    ∧ (translateChunkToGemini parse chunk0).candidates = []
    ∧ (translateChunkToGemini parse chunk0).usageMetadata
        = some { promptTokenCount := 0, candidatesTokenCount := 0, totalTokenCount := 0 }
    ∧ (translateOpenAIToGemini parse response).candidates.length
        = response.choices.length := by
  refine ⟨?_, ?_, ?_, ?_, ?_⟩
  · simp [translateChunkToGemini, hch]
  · simp [translateChunkToGemini, hch]
  · simp [translateChunkToGemini, h0]
  · simp [translateChunkToGemini, h0]
  · simp [translateOpenAIToGemini]

theorem claim_C10_witness :
    (({ choices := [{ delta := { content := some "hi" } }, { delta := { content := some "ignored" } }], usage := none } : ChatCompletionChunk).choices
        = ({ delta := { content := some "hi" } } : ChunkChoice) :: [{ delta := { content := some "ignored" } }])
    ∧ (({ choices := [], usage := some { prompt_tokens := some 7 } } : ChatCompletionChunk).choices = [])
    ∧ (translateChunkToGemini (fun _ => Json.obj [])
        { choices := [{ delta := { content := some "hi" } }, { delta := { content := some "ignored" } }], usage := none }).candidates.length = 1
    ∧ (translateChunkToGemini (fun _ => Json.obj [])
        { choices := [], usage := some { prompt_tokens := some 7 } }).usageMetadata
        = some { promptTokenCount := 0, candidatesTokenCount := 0, totalTokenCount := 0 } := by
  refine ⟨rfl, rfl, ?_, ?_⟩
  · exact (claim_C10 (fun _ => Json.obj [])
      { choices := [{ delta := { content := some "hi" } }, { delta := { content := some "ignored" } }], usage := none }
      { choices := [], usage := some { prompt_tokens := some 7 } }
      { delta := { content := some "hi" } } [{ delta := { content := some "ignored" } }]
      rfl rfl { choices := [], usage := none }).1
  · exact (claim_C10 (fun _ => Json.obj [])
      { choices := [{ delta := { content := some "hi" } }, { delta := { content := some "ignored" } }], usage := none }
      { choices := [], usage := some { prompt_tokens := some 7 } }
      { delta := { content := some "hi" } } [{ delta := { content := some "ignored" } }]
      rfl rfl { choices := [], usage := none }).2.2.2.1

/-- The numeric value of a decimal digit string (inverse reading of
`natToDecAux`). -/
def decVal (l : List Char) : Nat :=
  l.foldl (fun a c => a * 10 + (c.toNat - 48)) 0

theorem decVal_append_digit (l : List Char) (c : Char) :
    decVal (l ++ [c]) = decVal l * 10 + (c.toNat - 48) := by
  simp [decVal, List.foldl_append]

theorem digitChar_val : ∀ m, m < 10 → (Nat.digitChar m).toNat - 48 = m := by decide

theorem digitChar_ne_underscore : ∀ m, m < 10 → Nat.digitChar m ≠ '_' := by decide

theorem natToDecAux_val : ∀ (fuel n : Nat), n ≤ fuel → decVal (natToDecAux fuel n) = n := by
  intro fuel
  induction fuel with
  | zero =>
    intro n hn
    have h0 : n = 0 := Nat.le_zero.mp hn
    subst h0
    simp [natToDecAux, decVal]
  | succ f ih =>
    intro n hn
    by_cases h0 : n = 0
    · subst h0
      simp [natToDecAux, decVal]
    · have hdiv : n / 10 ≤ f := by
        have h1 : n / 10 < n := Nat.div_lt_self (Nat.pos_of_ne_zero h0) (by omega)
        omega
      have hmod : n % 10 < 10 := Nat.mod_lt n (by omega)
      rw [natToDecAux, if_neg h0, decVal_append_digit, ih (n / 10) hdiv,
        digitChar_val (n % 10) hmod]
      have := Nat.div_add_mod n 10
      omega

theorem natToDec_inj : ∀ {a b : Nat}, natToDec a = natToDec b → a = b := by
  intro a b h
  have hdata := congrArg String.data h
  by_cases ha : a = 0 <;> by_cases hb : b = 0
  · omega
  · exfalso
    subst ha
    rw [natToDec, if_pos rfl, natToDec, if_neg hb] at hdata
    have h0 : ("0" : String).data = ['0'] := rfl
    have h1 : ((natToDecAux b b).asString).data = natToDecAux b b := rfl
    rw [h0, h1] at hdata
    have hv := congrArg decVal hdata
    rw [natToDecAux_val b b (le_refl b)] at hv
    have hz : decVal ['0'] = 0 := by decide
    rw [hz] at hv
    exact hb hv.symm
  · exfalso
    subst hb
    rw [natToDec, if_neg ha, natToDec, if_pos rfl] at hdata
    have h0 : ("0" : String).data = ['0'] := rfl
    have h1 : ((natToDecAux a a).asString).data = natToDecAux a a := rfl
    rw [h0, h1] at hdata
    have hv := congrArg decVal hdata
    rw [natToDecAux_val a a (le_refl a)] at hv
    have hz : decVal ['0'] = 0 := by decide
    rw [hz] at hv
    exact ha hv
  · rw [natToDec, if_neg ha, natToDec, if_neg hb] at hdata
    have h1 : ((natToDecAux a a).asString).data = natToDecAux a a := rfl
    have h2 : ((natToDecAux b b).asString).data = natToDecAux b b := rfl
    rw [h1, h2] at hdata
    have hv := congrArg decVal hdata
    rw [natToDecAux_val a a (le_refl a), natToDecAux_val b b (le_refl b)] at hv
    exact hv

theorem natToDecAux_ne_underscore : ∀ (fuel n : Nat), ∀ c ∈ natToDecAux fuel n, c ≠ '_' := by
  intro fuel
  induction fuel with
  | zero =>
    intro n c hc
    simp [natToDecAux] at hc
  | succ f ih =>
    intro n c hc
    by_cases h0 : n = 0
    · subst h0
      simp [natToDecAux] at hc
    · rw [natToDecAux, if_neg h0] at hc
      rcases List.mem_append.mp hc with h | h
      · exact ih (n / 10) c h
      · have hcd : c = Nat.digitChar (n % 10) := by simpa using h
        subst hcd
        exact digitChar_ne_underscore (n % 10) (Nat.mod_lt n (by omega))

theorem natToDec_ne_underscore (n : Nat) : ∀ c ∈ (natToDec n).data, c ≠ '_' := by
  by_cases h0 : n = 0
  · subst h0
    intro c hc
    have : c ∈ ['0'] := hc
    simp at this
    subst this
    decide
  · intro c hc
    rw [natToDec, if_neg h0] at hc
    exact natToDecAux_ne_underscore n n c hc

theorem takeWhile_ne_underscore_append (d pre : List Char) (hd : ∀ c ∈ d, c ≠ '_') :
    (d ++ '_' :: pre).takeWhile (fun c => !(c = '_')) = d := by
  induction d with
  | nil => simp [List.takeWhile_cons]
  | cons c d ih =>
    have hc : c ≠ '_' := hd c (by simp)
    simp only [List.cons_append, List.takeWhile_cons]
    rw [if_pos (by simp [hc])]
    rw [ih (fun x hx => hd x (by simp [hx]))]

theorem lastField_append (A B : List Char) (hB : ∀ c ∈ B, c ≠ '_') :
    (((A ++ '_' :: B).reverse).takeWhile (fun c => !(c = '_'))).reverse = B := by
  rw [List.reverse_append, List.reverse_cons, List.append_assoc, List.singleton_append]
  rw [takeWhile_ne_underscore_append B.reverse A.reverse
    (fun c hc => hB c (List.mem_reverse.mp hc))]
  exact List.reverse_reverse B

theorem mkCallId_data (now : Nat) (name : String) (idx : Nat) :
    (mkCallId now name idx).data
      = ("call_" ++ name ++ "_" ++ natToDec now).data ++ '_' :: (natToDec idx).data := by
  have hu : ("_" : String).data = ['_'] := rfl
  simp [mkCallId, String.data_append, hu]

theorem mkCallId_inj_idx (now : Nat) (n1 n2 : String) (i1 i2 : Nat)
    (h : mkCallId now n1 i1 = mkCallId now n2 i2) : i1 = i2 := by
  have hd : ((mkCallId now n1 i1).data.reverse.takeWhile (fun c => !(c = '_'))).reverse
      = ((mkCallId now n2 i2).data.reverse.takeWhile (fun c => !(c = '_'))).reverse := by
    rw [h]
  rw [mkCallId_data, mkCallId_data,
    lastField_append _ _ (natToDec_ne_underscore i1),
    lastField_append _ _ (natToDec_ne_underscore i2)] at hd
  exact natToDec_inj (String.ext hd)

theorem enumFrom_mkCallId_nodup (now : Nat) :
    ∀ (l : List FunctionCall) (k : Nat),
      ((List.enumFrom k l).map (fun p => mkCallId now p.2.name p.1)).Nodup := by
  intro l
  induction l with
  | nil => intro k; simp
  | cons fc rest ih =>
    intro k
    rw [List.enumFrom_cons, List.map_cons]
    refine List.nodup_cons.mpr ⟨?_, ih (k + 1)⟩
    intro hmem
    rcases List.mem_map.mp hmem with ⟨p, hp, heq⟩
    obtain ⟨i, x⟩ := p
    have hb := (List.mem_enumFrom hp).1
    have hik : i = k := mkCallId_inj_idx now x.name fc.name i k heq
    omega

theorem toolCallIdQueue_nodup (now : Nat) (contents : List GeminiContent) :
    (toolCallIdQueue now contents).Nodup := by
  have h := enumFrom_mkCallId_nodup now (allFunctionCalls contents) 0
  simpa [toolCallIdQueue, List.enum] using h

theorem dedup_eq_self (frs : List FunctionResponse) :
    ∀ (seen : List String), nodupStr (carriedIds frs) = true →
      (∀ s ∈ carriedIds frs, s ∉ seen) →
      dedupFunctionResponses seen frs = frs := by
  induction frs with
  | nil => intro seen _ _; simp [dedupFunctionResponses]
  | cons fr rest ih =>
    intro seen hnd hdis
    cases hid : fr.id with
    | none =>
      have hci : carriedIds (fr :: rest) = carriedIds rest := by
        simp [carriedIds, hid]
      rw [hci] at hnd hdis
      have hred : dedupFunctionResponses seen (fr :: rest)
          = fr :: dedupFunctionResponses seen rest := by
        simp [dedupFunctionResponses, hid]
      rw [hred, ih seen hnd hdis]
    | some t =>
      by_cases ht : t = ""
      · subst ht
        have hci : carriedIds (fr :: rest) = carriedIds rest := by
          simp [carriedIds, hid]
        rw [hci] at hnd hdis
        have hred : dedupFunctionResponses seen (fr :: rest)
            = fr :: dedupFunctionResponses seen rest := by
          simp [dedupFunctionResponses, hid]
        rw [hred, ih seen hnd hdis]
      · have hci : carriedIds (fr :: rest) = t :: carriedIds rest := by
          simp [carriedIds, hid, ht]
        rw [hci] at hnd hdis
        simp only [nodupStr, Bool.and_eq_true, Bool.not_eq_true'] at hnd
        have htseen : t ∉ seen := hdis t (by simp)
        have hred : dedupFunctionResponses seen (fr :: rest)
            = fr :: dedupFunctionResponses (t :: seen) rest := by
          simp [dedupFunctionResponses, hid, ht, htseen]
        rw [hred, ih (t :: seen) hnd.2 ?_]
        intro s hs hmem2
        rcases List.mem_cons.mp hmem2 with h | h
        · subst h
          have hel : (carriedIds rest).contains s = true := List.elem_iff.mpr hs
          rw [hnd.1] at hel
          exact Bool.false_ne_true hel
        · exact hdis s (List.mem_cons_of_mem t hs) h

theorem rangeMap_get_slice (queue : List String) :
    ∀ (count start : Nat), start + count ≤ queue.length →
      (List.range count).map (fun j => queue.get? (start + j))
        = ((queue.drop start).take count).map some := by
  intro count
  induction count with
  | zero => intro start h; simp
  | succ m ih =>
    intro start h
    have hstart : start < queue.length := by omega
    rw [List.range_succ_eq_map, List.map_cons,
      List.drop_eq_getElem_cons hstart, List.take_succ_cons, List.map_cons]
    congr 1
    · simp [List.get?_eq_getElem?, List.getElem?_eq_getElem hstart]
    · rw [List.map_map]
      have hfun : ((fun j => queue.get? (start + j)) ∘ Nat.succ)
          = (fun j => queue.get? ((start + 1) + j)) := by
        funext j
        have : start + (j + 1) = (start + 1) + j := by omega
        simp [Function.comp, Nat.succ_eq_add_one, this]
      rw [hfun, ih (start + 1) (by omega)]

theorem enum_map_fst_apply {β : Type} (l : List FunctionCall) (g : Nat → β) :
    l.enum.map (fun p => g p.1) = (List.range l.length).map g := by
  conv_rhs => rw [← List.enum_map_fst l]
  rw [List.map_map]
  rfl

theorem enum_map_fst_apply_fr {β : Type} (l : List FunctionResponse) (g : Nat → β) :
    l.enum.map (fun p => g p.1) = (List.range l.length).map g := by
  conv_rhs => rw [← List.enum_map_fst l]
  rw [List.map_map]
  rfl

theorem translateRole_ne_tool (r : Option String) (h : roleOk r = true) :
    ¬ translateGeminiRoleToOpenAI r = "tool" := by
  cases r with
  | none => simp [translateGeminiRoleToOpenAI]
  | some s =>
    simp only [roleOk, Bool.or_eq_true, decide_eq_true_eq] at h
    rcases h with h | h <;> subst h <;> simp [translateGeminiRoleToOpenAI]

theorem callTurn_ids (stringify : Json → String) (queue : List String) (idx : Nat)
    (c : GeminiContent) (hfc : 0 < (contentFunctionCalls c).length) :
    messageCallIds (translateGeminiContent stringify queue idx c).1
      = (List.range (contentFunctionCalls c).length).map (fun j => queue.get? (idx + j))
    ∧ messageToolResultIds (translateGeminiContent stringify queue idx c).1 = []
    ∧ (translateGeminiContent stringify queue idx c).2
        = idx + (contentFunctionCalls c).length := by
  refine ⟨?_, ?_, ?_⟩
  · simp only [translateGeminiContent]
    rw [if_pos hfc]
    simp only [messageCallIds, List.flatMap_cons, List.flatMap_nil, List.append_nil]
    simp only [List.map_map]
    rw [← enum_map_fst_apply (contentFunctionCalls c) (fun j => queue.get? (idx + j))]
    rfl
  · simp only [translateGeminiContent]
    rw [if_pos hfc]
    simp [messageToolResultIds]
  · simp only [translateGeminiContent]
    rw [if_pos hfc]

theorem responseTurn_ids (stringify : Json → String) (queue : List String)
    (calls results : Nat) (c : GeminiContent)
    (hfc : ¬ 0 < (contentFunctionCalls c).length)
    (hfr : 0 < (contentFunctionResponses c).length)
    (hbal : results + (contentFunctionResponses c).length = calls)
    (hnd : nodupStr (carriedIds (contentFunctionResponses c)) = true)
    (hlen : calls ≤ queue.length) :
    messageCallIds (translateGeminiContent stringify queue calls c).1 = []
    ∧ messageToolResultIds (translateGeminiContent stringify queue calls c).1
        = ((queue.drop results).take (contentFunctionResponses c).length).map some
    ∧ (translateGeminiContent stringify queue calls c).2 = calls := by
  have hkept : dedupFunctionResponses [] (contentFunctionResponses c)
      = contentFunctionResponses c :=
    dedup_eq_self _ [] hnd (by simp)
  refine ⟨?_, ?_, ?_⟩
  · simp only [translateGeminiContent]
    rw [if_neg hfc, if_pos hfr, hkept]
    simp [messageCallIds, List.flatMap_def]
  · simp only [translateGeminiContent]
    rw [if_neg hfc, if_pos hfr, hkept]
    simp only [messageToolResultIds, List.filterMap_map]
    have hcomp : ((fun m => if m.role = "tool" then some m.tool_call_id else none) ∘
        (fun p : Nat × FunctionResponse =>
          ({ role := "tool"
             content := .str (stringify p.2.response)
             tool_call_id := listGetInt queue
               ((calls : Int) - ((contentFunctionResponses c).length : Int) + (p.1 : Int)) } : Message)))
        = some ∘ (fun p : Nat × FunctionResponse => listGetInt queue
            ((calls : Int) - ((contentFunctionResponses c).length : Int) + (p.1 : Int))) := by
      funext p
      simp
    rw [hcomp, List.filterMap_eq_map]
    rw [enum_map_fst_apply_fr (contentFunctionResponses c)
      (fun j => listGetInt queue
        ((calls : Int) - ((contentFunctionResponses c).length : Int) + (j : Int)))]
    have hfun : (fun (j : Nat) => listGetInt queue
        ((calls : Int) - ((contentFunctionResponses c).length : Int) + (j : Int)))
        = (fun (j : Nat) => queue.get? (results + j)) := by
      funext j
      have harith : (calls : Int) - ((contentFunctionResponses c).length : Int) + (j : Int)
          = ((results + j : Nat) : Int) := by
        push_cast
        omega
      rw [harith]
      simp only [listGetInt]
      rw [if_pos (Int.natCast_nonneg _)]
      have htn : (((results + j : Nat) : Int)).toNat = results + j := by omega
      rw [htn]
    rw [hfun, rangeMap_get_slice queue _ results (by omega)]
  · simp only [translateGeminiContent]
    rw [if_neg hfc, if_pos hfr]

theorem plainTurn_ids (stringify : Json → String) (queue : List String) (idx : Nat)
    (c : GeminiContent)
    (hfc : ¬ 0 < (contentFunctionCalls c).length)
    (hfr : ¬ 0 < (contentFunctionResponses c).length)
    (hrole : roleOk c.role = true) :
    messageCallIds (translateGeminiContent stringify queue idx c).1 = []
    ∧ messageToolResultIds (translateGeminiContent stringify queue idx c).1 = []
    ∧ (translateGeminiContent stringify queue idx c).2 = idx := by
  have hrt := translateRole_ne_tool c.role hrole
  refine ⟨?_, ?_, ?_⟩
  · simp only [translateGeminiContent]
    rw [if_neg hfc, if_neg hfr]
    simp [messageCallIds]
  · simp only [translateGeminiContent]
    rw [if_neg hfc, if_neg hfr]
    simp [messageToolResultIds, hrt]
  · simp only [translateGeminiContent]
    rw [if_neg hfc, if_neg hfr]

theorem messageCallIds_append (a b : List Message) :
    messageCallIds (a ++ b) = messageCallIds a ++ messageCallIds b := by
  simp [messageCallIds, List.flatMap_append]

theorem messageToolResultIds_append (a b : List Message) :
    messageToolResultIds (a ++ b) = messageToolResultIds a ++ messageToolResultIds b := by
  simp [messageToolResultIds, List.filterMap_append]

theorem loop_ids (stringify : Json → String) (queue : List String) :
    ∀ (contents : List GeminiContent) (calls results : Nat),
      wfContents calls results contents = true →
      calls + (allFunctionCalls contents).length ≤ queue.length →
      messageCallIds (translateContentsLoop stringify queue calls contents)
        = ((queue.drop calls).take (allFunctionCalls contents).length).map some
      ∧ messageToolResultIds (translateContentsLoop stringify queue calls contents)
        = ((queue.drop results).take (totalResponses contents)).map some := by
  intro contents
  induction contents with
  | nil =>
    intro calls results hwf hlen
    simp [translateContentsLoop, messageCallIds, messageToolResultIds,
      allFunctionCalls, totalResponses]
  | cons c rest ih =>
    intro calls results hwf hlen
    have hall : (allFunctionCalls (c :: rest)).length
        = (contentFunctionCalls c).length + (allFunctionCalls rest).length := by
      simp [allFunctionCalls, List.flatMap_cons]
    have htot : totalResponses (c :: rest)
        = (contentFunctionResponses c).length + totalResponses rest := by
      simp [totalResponses]
    have hloop : translateContentsLoop stringify queue calls (c :: rest)
        = (translateGeminiContent stringify queue calls c).1
          ++ translateContentsLoop stringify queue
              (translateGeminiContent stringify queue calls c).2 rest := rfl
    by_cases hfc : 0 < (contentFunctionCalls c).length
    · have hwf' : (contentFunctionResponses c).length = 0
          ∧ wfContents (calls + (contentFunctionCalls c).length) results rest = true := by
        simp only [wfContents] at hwf
        rw [if_pos hfc] at hwf
        simpa [Bool.and_eq_true, decide_eq_true_eq] using hwf
      obtain ⟨hct, ht2, hidx⟩ := callTurn_ids stringify queue calls c hfc
      rw [hloop, hidx]
      have hlen' : calls + (contentFunctionCalls c).length
          + (allFunctionCalls rest).length ≤ queue.length := by
        rw [hall] at hlen
        omega
      obtain ⟨ih1, ih2⟩ := ih (calls + (contentFunctionCalls c).length) results hwf'.2 hlen'
      constructor
      · rw [messageCallIds_append, hct, ih1,
          rangeMap_get_slice queue (contentFunctionCalls c).length calls (by omega),
          hall, List.take_add, List.map_append, List.drop_drop]
      · rw [messageToolResultIds_append, ht2, ih2, htot, hwf'.1, List.nil_append,
          Nat.zero_add]
    · have hfc0 : (contentFunctionCalls c).length = 0 := by omega
      by_cases hfr : 0 < (contentFunctionResponses c).length
      · have hwf' : results + (contentFunctionResponses c).length = calls
            ∧ nodupStr (carriedIds (contentFunctionResponses c)) = true
            ∧ wfContents calls (results + (contentFunctionResponses c).length) rest = true := by
          simp only [wfContents] at hwf
          rw [if_neg hfc, if_pos hfr] at hwf
          simpa [Bool.and_eq_true, decide_eq_true_eq, and_assoc] using hwf
        obtain ⟨hmc, ht2, hidx⟩ := responseTurn_ids stringify queue calls results c
          hfc hfr hwf'.1 hwf'.2.1 (by omega)
        rw [hloop, hidx]
        have hlen' : calls + (allFunctionCalls rest).length ≤ queue.length := by
          rw [hall, hfc0] at hlen
          omega
        obtain ⟨ih1, ih2⟩ := ih calls (results + (contentFunctionResponses c).length)
          hwf'.2.2 hlen'
        constructor
        · rw [messageCallIds_append, hmc, ih1, List.nil_append, hall, hfc0, Nat.zero_add]
        · rw [messageToolResultIds_append, ht2, ih2, htot, List.take_add,
            List.map_append, List.drop_drop]
      · have hwf' : roleOk c.role = true ∧ wfContents calls results rest = true := by
          simp only [wfContents] at hwf
          rw [if_neg hfc, if_neg hfr] at hwf
          simpa [Bool.and_eq_true] using hwf
        have hfr0 : (contentFunctionResponses c).length = 0 := by omega
        obtain ⟨hmc, ht2, hidx⟩ := plainTurn_ids stringify queue calls c hfc hfr hwf'.1
        rw [hloop, hidx]
        have hlen' : calls + (allFunctionCalls rest).length ≤ queue.length := by
          rw [hall, hfc0] at hlen
          omega
        obtain ⟨ih1, ih2⟩ := ih calls results hwf'.2 hlen'
        constructor
        · rw [messageCallIds_append, hmc, ih1, List.nil_append, hall, hfc0, Nat.zero_add]
        · rw [messageToolResultIds_append, ht2, ih2, htot, hfr0, List.nil_append,
            Nat.zero_add]

/-- C3: for a well-formed conversation (turns never mix calls and responses,
each response turn answers exactly the currently pending calls in order,
carried response ids do not collide within a turn), the translation assigns
one synthetic id per function call — the pre-generated queue, built scanning
turns top-to-bottom and parts left-to-right — these ids are pairwise
distinct, the translated assistant messages carry exactly them in encounter
order, and the outbound tool-result messages carry exactly the ids of their
paired calls (the queue's prefix of answered calls, in order). -/
theorem claim_C3 (stringify : Json → String) (now : Nat)
    (contents : List GeminiContent) (h : wfConversation contents = true) :
    (toolCallIdQueue now contents).Nodup
    ∧ (toolCallIdQueue now contents).length = (allFunctionCalls contents).length
    ∧ messageCallIds (translateGeminiContentsToOpenAI stringify now contents none)
        = (toolCallIdQueue now contents).map some
    ∧ messageToolResultIds (translateGeminiContentsToOpenAI stringify now contents none)
        = ((toolCallIdQueue now contents).take (totalResponses contents)).map some := by
  have hlen : (toolCallIdQueue now contents).length = (allFunctionCalls contents).length := by
    simp [toolCallIdQueue, List.enum_length]
  have htr : translateGeminiContentsToOpenAI stringify now contents none
      = translateContentsLoop stringify (toolCallIdQueue now contents) 0 contents := by
    simp [translateGeminiContentsToOpenAI]
  have hmain := loop_ids stringify (toolCallIdQueue now contents) contents 0 0 h
    (by omega)
  refine ⟨toolCallIdQueue_nodup now contents, hlen, ?_, ?_⟩
  · rw [htr, hmain.1, List.drop_zero, ← hlen, List.take_length]
  · rw [htr, hmain.2, List.drop_zero]

/-- A well-formed conversation with one call→result pair. -/
def c3contents : List GeminiContent :=
  [ { role := some "user", parts := [.text "hi"] },
    { role := some "model", parts := [.functionCall { name := "f", args := .obj [] }] },
    { role := some "user", parts := [.functionResponse { id := none, name := "f", response := .obj [] }] } ]

theorem claim_C3_witness :
    wfConversation c3contents = true
    ∧ (toolCallIdQueue 1 c3contents).Nodup
    ∧ messageCallIds (translateGeminiContentsToOpenAI (fun _ => "") 1 c3contents none)
        = (toolCallIdQueue 1 c3contents).map some
    ∧ messageToolResultIds (translateGeminiContentsToOpenAI (fun _ => "") 1 c3contents none)
        = ((toolCallIdQueue 1 c3contents).take (totalResponses c3contents)).map some := by
  have h := claim_C3 (fun _ => "") 1 c3contents (by decide)
  exact ⟨by decide, h.1, h.2.2.1, h.2.2.2⟩
